import Mathlib

/-!
Verification development for `scripts/parse_notes.py` (class `JapaneseNotesParser`).

The Python parser is embedded shallowly: every method of the class becomes a
Lean definition of the same name operating on `String` / `List Char`, and the
line-driver loop of `parse_file` becomes an explicit state machine.

Modelling conventions, stated once here:
* Python strings are Lean `String`s; all scanning is done on the underlying
  `List Char`, with code points compared through `Char.toNat` (Python compares
  strings code point by code point, exactly as the lexicographic order on the
  character lists used below).
* The regex class `\s` and `str.strip()` both use Python's Unicode whitespace;
  they are modelled by the explicit code-point list `pyWhitespace`.
* The regex class `\d` is modelled as the ASCII digits `0`-`9`.
* `str.lower()` is modelled as ASCII lowercasing; every keyword in the tables
  is either already ASCII-lowercase or Japanese, which `lower()` fixes.
* Python `list(set(...))` enumerates a hash set whose order depends on the
  per-process string-hash seed; it is modelled by first-occurrence
  deduplication (`pySetList`).  No theorem below depends on the enumeration
  order except where the seed dependence itself is under discussion.
* `list.sort(key=...)` is Python's stable sort; it is modelled by the stable
  insertion sort `sortByDate`.  Any two stable sorts agree extensionally, so
  this is faithful to Timsort.
-/

/-- Unicode whitespace code points recognised by Python's `str.strip` and the
regex class `\s`. -/
def pyWhitespace : List Char :=
  [' ', '\t', '\n', '\r', Char.ofNat 0x0B, Char.ofNat 0x0C,
   Char.ofNat 0x1C, Char.ofNat 0x1D, Char.ofNat 0x1E, Char.ofNat 0x1F,
   Char.ofNat 0x85, Char.ofNat 0xA0, Char.ofNat 0x1680,
   Char.ofNat 0x2000, Char.ofNat 0x2001, Char.ofNat 0x2002, Char.ofNat 0x2003,
   Char.ofNat 0x2004, Char.ofNat 0x2005, Char.ofNat 0x2006, Char.ofNat 0x2007,
   Char.ofNat 0x2008, Char.ofNat 0x2009, Char.ofNat 0x200A,
   Char.ofNat 0x2028, Char.ofNat 0x2029, Char.ofNat 0x202F,
   Char.ofNat 0x205F, Char.ofNat 0x3000]

/-- Python whitespace test (`str.isspace` on a single character). -/
def isSpace (c : Char) : Bool := pyWhitespace.contains c

/-- Python `str.strip()` on a character list. -/
def pyStripL (s : List Char) : List Char :=
  ((s.dropWhile isSpace).reverse.dropWhile isSpace).reverse

/-- Python `str.strip()`. -/
def pyStrip (s : String) : String := String.mk (pyStripL s.data)

/-- Python `str.lstrip()`. -/
def pyLstrip (s : String) : String := String.mk (s.data.dropWhile isSpace)

/-- Split at the first occurrence of `sep` (Python `s.split(sep, 1)` when
`sep in s`); `none` when `sep` does not occur.  `sep` is always non-empty in
this development. -/
def splitOnce (sep : List Char) : List Char → Option (List Char × List Char)
  | [] => none
  | c :: rest =>
    if sep.isPrefixOf (c :: rest) then some ([], (c :: rest).drop sep.length)
    else
      match splitOnce sep rest with
      | some (a, b) => some (c :: a, b)
      | none => none

/-- Python substring containment `sub in s` (for non-empty `sub`). -/
def pyIn (sub s : List Char) : Bool := (splitOnce sub s).isSome

/-- `has_kanji`: `re.search(r'[一-龯]', text)`, i.e. any code point in
U+4E00 .. U+9FAF. -/
def has_kanji (s : String) : Bool :=
  s.data.any (fun c => 0x4E00 ≤ c.toNat && c.toNat ≤ 0x9FAF)

/-- Character class of the regex
`^[぀-ゟ゠-ヿー　-〿ー]+$` used by
`is_all_hiragana_katakana` (`ー` and `ー` lie inside the katakana block). -/
def isKanaBlock (c : Char) : Bool :=
  (0x3040 ≤ c.toNat && c.toNat ≤ 0x309F) ||
  (0x30A0 ≤ c.toNat && c.toNat ≤ 0x30FF) ||
  (0x3000 ≤ c.toNat && c.toNat ≤ 0x303F)

/-- `is_all_hiragana_katakana`: remove `[\s\-\.\,\?\!]`, then require a
non-empty remainder made only of the kana/punctuation blocks above. -/
def is_all_hiragana_katakana (s : String) : Bool :=
  let clean := s.data.filter
    (fun c => !(isSpace c || c == '-' || c == '.' || c == ',' || c == '?' || c == '!'))
  !clean.isEmpty && clean.all isKanaBlock

/-- Scan for the lazy group `([^（\s]+?)（` of the furigana regex starting at
the current position: the base is the run up to the first `（`, which must be
non-empty and contain no whitespace.  Returns `(base, text after the `（`)`. -/
def scanBase (s : List Char) : Option (List Char × List Char) :=
  match s.dropWhile (fun c => c ≠ '（') with
  | _ :: tail =>
    if (s.takeWhile (fun c => c ≠ '（')).isEmpty
        || (s.takeWhile (fun c => c ≠ '（')).any isSpace then none
    else some (s.takeWhile (fun c => c ≠ '（'), tail)
  | [] => none

/-- Scan for the lazy group `([^）]+?)）`: the reading is the run up to the
first `）`, which must be non-empty.  Returns `(reading, text after `）`)`. -/
def scanReading (s : List Char) : Option (List Char × List Char) :=
  match s.dropWhile (fun c => c ≠ '）') with
  | _ :: tail =>
    if (s.takeWhile (fun c => c ≠ '）')).isEmpty then none
    else some (s.takeWhile (fun c => c ≠ '）'), tail)
  | [] => none

/-- Attempt the full furigana pattern `([^（\s]+?)（([^）]+?)）` anchored at the
current position. -/
def tryMatch (s : List Char) : Option (List Char × List Char × List Char) :=
  match scanBase s with
  | none => none
  | some (b, r1) =>
    match scanReading r1 with
    | none => none
    | some (rd, r2) => some (b, rd, r2)

/-- Leftmost match of the furigana pattern (`re.finditer` step): returns the
unmatched gap before the match together with `(base, reading, rest)`. -/
def findMatch : List Char → Option (List Char × (List Char × List Char × List Char))
  | [] => none
  | c :: rest =>
    match tryMatch (c :: rest) with
    | some m => some ([], m)
    | none =>
      match findMatch rest with
      | some (g, m) => some (c :: g, m)
      | none => none

theorem length_dropWhile_le (p : Char → Bool) (l : List Char) :
    (l.dropWhile p).length ≤ l.length := by
  induction l with
  | nil => simp [List.dropWhile]
  | cons c rest ih =>
    by_cases h : p c
    · simp [List.dropWhile, h]; omega
    · simp [List.dropWhile, h]

theorem scanBase_rest_lt (s b r : List Char) (h : scanBase s = some (b, r)) :
    r.length < s.length := by
  have h1 := length_dropWhile_le (fun c => decide (c ≠ '（')) s
  unfold scanBase at h
  split at h
  next c tail heq =>
    split at h
    · exact absurd h (by simp)
    · simp only [Option.some.injEq, Prod.mk.injEq] at h
      rw [heq] at h1
      simp only [List.length_cons] at h1
      have hr : tail.length = r.length := by rw [h.2]
      omega
  next => exact absurd h (by simp)

theorem scanReading_rest_lt (s b r : List Char) (h : scanReading s = some (b, r)) :
    r.length < s.length := by
  have h1 := length_dropWhile_le (fun c => decide (c ≠ '）')) s
  unfold scanReading at h
  split at h
  next c tail heq =>
    split at h
    · exact absurd h (by simp)
    · simp only [Option.some.injEq, Prod.mk.injEq] at h
      rw [heq] at h1
      simp only [List.length_cons] at h1
      have hr : tail.length = r.length := by rw [h.2]
      omega
  next => exact absurd h (by simp)

theorem tryMatch_rest_lt (s b rd r : List Char) (h : tryMatch s = some (b, rd, r)) :
    r.length < s.length := by
  unfold tryMatch at h
  split at h
  · exact absurd h (by simp)
  next b1 r1 h1 =>
    split at h
    · exact absurd h (by simp)
    next rd1 r2 h2 =>
      simp only [Option.some.injEq, Prod.mk.injEq] at h
      obtain ⟨hb, hrd, hr⟩ := h
      have hx := scanReading_rest_lt r1 rd1 r2 h2
      have hy := scanBase_rest_lt s b1 r1 h1
      have hz : r2.length = r.length := by rw [hr]
      omega

theorem findMatch_rest_lt (s g b rd r : List Char)
    (h : findMatch s = some (g, (b, rd, r))) : r.length < s.length := by
  induction s generalizing g with
  | nil => exact absurd h (by simp [findMatch])
  | cons c rest ih =>
    unfold findMatch at h
    split at h
    next m h1 =>
      rcases m with ⟨b1, rd1, r1⟩
      simp only [Option.some.injEq, Prod.mk.injEq] at h
      obtain ⟨hg, hb, hrd, hr⟩ := h
      have hx := tryMatch_rest_lt (c :: rest) b1 rd1 r1 h1
      have hz : r1.length = r.length := by rw [hr]
      omega
    next h1 =>
      split at h
      next g2 m2 h2 =>
        rcases m2 with ⟨b2, rd2, r2⟩
        simp only [Option.some.injEq, Prod.mk.injEq] at h
        obtain ⟨hg, hb, hrd, hr⟩ := h
        rw [hb, hrd, hr] at h2
        exact lt_trans (ih g2 h2) (by simp)
      next => exact absurd h (by simp)

/-- The accumulation loop of `extract_furigana`, with explicit fuel (each
match consumes at least one character, so `s.length` fuel always suffices; see
`furiganaBuffers_eq`): walk the furigana matches left to right, appending each
gap to both buffers, the base to the clean buffer and the reading to the
reading buffer, and the final remainder to both. -/
def furiganaBuffersF : Nat → List Char → List Char × List Char
  | 0, s => (s, s)
  | fuel + 1, s =>
    match findMatch s with
    | none => (s, s)
    | some (g, (b, rd, rest)) =>
      let p := furiganaBuffersF fuel rest
      (g ++ b ++ p.1, g ++ rd ++ p.2)

/-- The accumulation loop of `extract_furigana`. -/
def furiganaBuffers (s : List Char) : List Char × List Char :=
  furiganaBuffersF s.length s

theorem furiganaBuffersF_fuel (fuel : Nat) : ∀ fuel2 (s : List Char),
    s.length ≤ fuel → s.length ≤ fuel2 →
    furiganaBuffersF fuel s = furiganaBuffersF fuel2 s := by
  induction fuel with
  | zero =>
    intro fuel2 s h1 _
    have hs : s = [] := List.length_eq_zero.mp (Nat.le_zero.mp h1)
    subst hs
    cases fuel2 with
    | zero => rfl
    | succ f2 => simp [furiganaBuffersF, findMatch]
  | succ f ih =>
    intro fuel2 s h1 h2
    cases fuel2 with
    | zero =>
      have hs : s = [] := List.length_eq_zero.mp (Nat.le_zero.mp h2)
      subst hs
      simp [furiganaBuffersF, findMatch]
    | succ f2 =>
      simp only [furiganaBuffersF]
      cases hm : findMatch s with
      | none => rfl
      | some m =>
        rcases m with ⟨g, b, rd, rest⟩
        have hlt := findMatch_rest_lt s g b rd rest hm
        have := ih f2 rest (by omega) (by omega)
        simp [this]

/-- The genuine recursion equation of the buffer loop: the fuel never runs
out. -/
theorem furiganaBuffers_eq (s : List Char) :
    furiganaBuffers s =
      match findMatch s with
      | none => (s, s)
      | some (g, (b, rd, rest)) =>
        (g ++ b ++ (furiganaBuffers rest).1, g ++ rd ++ (furiganaBuffers rest).2) := by
  unfold furiganaBuffers
  cases hl : s.length with
  | zero =>
    have hs : s = [] := List.length_eq_zero.mp hl
    subst hs
    simp [furiganaBuffersF, findMatch]
  | succ n =>
    simp only [furiganaBuffersF]
    cases hm : findMatch s with
    | none => rfl
    | some m =>
      rcases m with ⟨g, b, rd, rest⟩
      have hlt := findMatch_rest_lt s g b rd rest hm
      have := furiganaBuffersF_fuel n rest.length rest (by omega) (by omega)
      simp [this]

/-- `extract_furigana`: returns `(clean_japanese, reading)`, with the reading
withheld (`none`) when the assembled reading buffer still contains kanji. -/
def extract_furigana (text : String) : String × Option String :=
  let p := furiganaBuffers text.data
  let clean := String.mk (pyStripL p.1)
  let reading := String.mk (pyStripL p.2)
  if has_kanji reading then (clean, none) else (clean, some reading)

/-- `re.sub(r'^\*\s*', '', line)`: drop one leading `*` and the whitespace
after it. -/
def stripBullet (s : String) : String :=
  match s.data with
  | '*' :: rest => String.mk (rest.dropWhile isSpace)
  | _ => s

/-- Result of `parse_entry_line`. -/
structure PRec where
  japanese : String
  reading : Option String
  english : Option String
deriving DecidableEq

/-- The separator `" - "`. -/
def sdsSep : List Char := [' ', '-', ' ']

/-- The separator `"- "`. -/
def dsSep : List Char := ['-', ' ']

/-- Character class `[）a-zA-Z]` of the guard regex `[）a-zA-Z]\- `. -/
def isDashClass (c : Char) : Bool :=
  c == '）' || (0x61 ≤ c.toNat && c.toNat ≤ 0x7A) || (0x41 ≤ c.toNat && c.toNat ≤ 0x5A)

/-- `re.search(r'[）a-zA-Z]\- ', line)`: some position holds a class character
followed by `-` and a space. -/
def dashGuard : List Char → Bool
  | a :: b :: c :: rest => (isDashClass a && b == '-' && c == ' ') || dashGuard (b :: c :: rest)
  | _ => false

/-- The caller-side fallback around `extract_furigana` (lines 215-219 of the
source): when no reading was extracted but the clean text is all
hiragana/katakana, the clean text itself becomes the reading. -/
def resolveReading (jp : String) : String × Option String :=
  match extract_furigana jp with
  | (c, some r) => (c, some r)
  | (c, none) => if is_all_hiragana_katakana c then (c, some c) else (c, none)

/-- `parse_entry_line`: strip the bullet, split Japanese/English on `" - "`
first, else on `"- "` under the `[）a-zA-Z]\- ` guard, else no translation;
then resolve furigana on the Japanese part. -/
def parse_entry_line (line : String) : Option PRec :=
  let l := pyStrip (stripBullet line)
  if l.data.isEmpty then none
  else
    let pr :=
      match splitOnce sdsSep l.data with
      | some (a, b) => (pyStrip (String.mk a), some (pyStrip (String.mk b)))
      | none =>
        if pyIn dsSep l.data && dashGuard l.data then
          match splitOnce dsSep l.data with
          | some (a, b) => (pyStrip (String.mk a), some (pyStrip (String.mk b)))
          | none => (l, (none : Option String))
        else (l, (none : Option String))
    let rr := resolveReading pr.1
    some ⟨rr.1, rr.2, pr.2⟩

/-- Code-point lexicographic comparison of character lists: exactly Python's
`<` on strings. -/
def lexLt : List Char → List Char → Bool
  | [], [] => false
  | [], _ :: _ => true
  | _ :: _, [] => false
  | a :: as, b :: bs =>
    if a.toNat < b.toNat then true
    else if b.toNat < a.toNat then false
    else lexLt as bs

/-- Python string `<`. -/
def strLtB (a b : String) : Bool := lexLt a.data b.data

/-- One step of Python's `min` over strings: keep the accumulator unless the
new element is strictly smaller. -/
def minString (acc x : String) : String := if strLtB x acc then x else acc

/-- ASCII lowercasing, modelling `str.lower()` on the texts at hand. -/
def pyLowerChar (c : Char) : Char :=
  if 0x41 ≤ c.toNat && c.toNat ≤ 0x5A then Char.ofNat (c.toNat + 32) else c

/-- Python `str.lower()` (ASCII model). -/
def pyLower (s : String) : String := String.mk (s.data.map pyLowerChar)

/-- `self.scenario_keywords`: the scenario → keyword table, in source order. -/
def scenario_keywords : List (String × List String) :=
  [("restaurant",
    ["レストラン", "料理", "食堂", "注文", "メニュー",
     "食べ", "飲み", "ごはん", "会計", "おいしい",
     "寿司", "ラーメン", "焼", "丼", "弁当",
     "eat", "drink", "food", "menu", "order", "restaurant",
     "delicious", "dish", "cuisine", "hungry"]),
   ("shopping",
    ["店", "買", "売", "レジ", "ポイント", "セール",
     "買い物", "かいもの", "値段", "高い", "安い",
     "shop", "store", "buy", "sell", "price"]),
   ("transportation",
    ["駅", "電車", "バス", "切符", "乗", "地下鉄",
     "新幹線", "タクシー", "飛行機", "空港",
     "station", "train", "bus", "subway", "taxi", "airport"]),
   ("time",
    ["時", "分", "日", "月", "曜日", "年",
     "今日", "明日", "昨日", "週", "朝", "夜", "午後",
     "time", "hour", "day", "week", "month", "year",
     "today", "tomorrow", "yesterday", "morning", "night"]),
   ("daily_life",
    ["仕事", "勉強", "寝", "起き", "散歩", "働",
     "家", "部屋", "料理", "洗濯", "掃除",
     "work", "study", "sleep", "wake", "walk", "home"]),
   ("family",
    ["家族", "母", "父", "娘", "息子", "兄", "姉",
     "弟", "妹", "祖父", "祖母", "犬", "猫",
     "family", "mother", "father", "daughter", "son", "dog", "cat"]),
   ("travel",
    ["旅行", "ホテル", "予約", "観光", "温泉",
     "travel", "hotel", "reservation", "sightseeing"]),
   ("weather",
    ["天気", "雨", "晴", "曇", "雪", "暑い", "寒い",
     "weather", "rain", "sunny", "cloudy", "snow", "hot", "cold"]),
   ("health",
    ["病院", "医者", "薬", "痛い", "具合", "熱",
     "hospital", "doctor", "medicine", "pain", "sick"]),
   ("greetings",
    ["おはよう", "こんにちは", "こんばんは", "さようなら",
     "ありがとう", "すみません", "ごめん",
     "hello", "goodbye", "thank", "sorry"])]

/-- `self.grammar_jlpt`: grammar pattern → JLPT level, in source (insertion)
order. -/
def grammar_jlpt : List (String × String) :=
  [("です", "N5"), ("ます", "N5"), ("ません", "N5"), ("ました", "N5"),
   ("ませんでした", "N5"), ("てください", "N5"), ("ている", "N5"),
   ("たい", "N5"), ("たくない", "N5"), ("ないです", "N5"),
   ("から", "N5"), ("けど", "N5"), ("が", "N5"),
   ("ていただけますか", "N4"), ("てもらえますか", "N4"),
   ("てもいいですか", "N4"), ("てはいけません", "N4"),
   ("なければなりません", "N4"), ("ことができます", "N4"),
   ("ことがあります", "N4"), ("と思います", "N4"),
   ("つもりです", "N4"), ("予定です", "N4"), ("ようにする", "N4"),
   ("たことがある", "N4"), ("たり", "N4"), ("ながら", "N4"),
   ("そうです", "N3"), ("ようです", "N3"), ("らしいです", "N3"),
   ("ほうがいい", "N3"), ("すぎる", "N3"), ("やすい", "N3"),
   ("にくい", "N3"), ("ために", "N3"), ("ようになる", "N3"),
   ("ことにする", "N3"), ("ばかり", "N3"), ("はず", "N3"),
   ("わけではない", "N2"), ("というのは", "N2"), ("ことになる", "N2"),
   ("ざるを得ない", "N2"), ("に関して", "N2"), ("において", "N2")]

/-- `self.vocab_jlpt`: per-level vocabulary lists, in source order. -/
def vocab_jlpt : List (String × List String) :=
  [("N5",
    ["食べる", "飲む", "行く", "来る", "見る", "聞く", "読む", "書く",
     "話す", "買う", "寝る", "起きる", "会う", "待つ", "作る", "使う",
     "今日", "明日", "昨日", "今", "朝", "夜", "午後", "午前",
     "時", "分", "月", "日", "年", "週", "曜日",
     "人", "男", "女", "子供", "友達", "先生", "学生",
     "家", "部屋", "学校", "会社", "駅", "店", "病院",
     "水", "お茶", "ご飯", "パン", "肉", "魚", "野菜", "果物",
     "大きい", "小さい", "高い", "安い", "新しい", "古い",
     "いい", "悪い", "多い", "少ない", "長い", "短い",
     "おいしい", "まずい", "暑い", "寒い", "暖かい", "涼しい"]),
   ("N4",
    ["届ける", "届く", "預ける", "預かる", "捨てる", "拾う",
     "変える", "変わる", "決める", "決まる", "集める", "集まる",
     "経験", "習慣", "予定", "準備", "説明", "紹介", "相談",
     "関係", "理由", "意味", "興味", "趣味", "性格", "気持ち",
     "複雑", "簡単", "普通", "特別", "必要", "大切", "大事",
     "残念", "心配", "安心", "緊張", "恥ずかしい"]),
   ("N3",
    ["影響", "効果", "原因", "結果", "目的", "方法", "状況",
     "責任", "義務", "権利", "自由", "平和", "環境", "社会",
     "経済", "政治", "文化", "歴史", "科学", "技術",
     "増える", "減る", "伸びる", "縮む", "広がる", "狭まる",
     "複雑", "単純", "具体的", "抽象的", "積極的", "消極的"])]

/-- `self.grammar_patterns`: the grammar keys, in table order. -/
def grammar_patterns_list : List String := grammar_jlpt.map Prod.fst

/-- `detect_entry_type`: length/marker heuristics classifying
vocab/phrase/sentence/note. -/
def detect_entry_type (japanese : String) (_english : Option String) : String :=
  if japanese.data.isEmpty then "note"
  else
    let n := (japanese.data.filter (fun c => !(c == ' ' || c == '　'))).length
    if n ≤ 5 && !(["ます", "です", "か"].any (fun p => pyIn p.data japanese.data)) then
      "vocab"
    else if ["ます", "ました", "ません", "です", "か", "よ", "ね"].any
        (fun p => p.data.isSuffixOf japanese.data) then
      if 12 < n then "sentence" else "phrase"
    else if ["ます", "です", "て", "た"].any (fun p => pyIn p.data japanese.data) then
      "phrase"
    else if n ≤ 8 then "vocab" else "phrase"

/-- `detect_scenarios`: keyword-driven multi-label topic tagging over the
lower-cased concatenation of text and translation; `["general"]` when nothing
matches. -/
def detect_scenarios (japanese : String) (english : Option String) : List String :=
  let text := pyLower (japanese ++ " " ++ english.getD "")
  let scenarios := scenario_keywords.filterMap
    (fun p => if p.2.any (fun kw => pyIn (pyLower kw).data text.data) then some p.1 else none)
  if scenarios.isEmpty then ["general"] else scenarios

/-- `detect_grammar_patterns`: all grammar markers contained in the text, in
table order. -/
def detect_grammar_patterns (japanese : String) : List String :=
  grammar_patterns_list.filter (fun p => pyIn p.data japanese.data)

/-- `level_order.get(x, 0)` of `detect_jlpt_level`. -/
def levelOrder (s : String) : Nat :=
  if s = "N5" then 1 else if s = "N4" then 2 else if s = "N3" then 3
  else if s = "N2" then 4 else if s = "N1" then 5 else 0

/-- Python `max(levels, key=level_order.get)`: first element of maximal key. -/
def pyMaxLevel : List String → Option String
  | [] => none
  | x :: xs => some (xs.foldl (fun acc y => if levelOrder acc < levelOrder y then y else acc) x)

/-- `detect_jlpt_level`: hardest level among grammar-pattern and
vocabulary-list matches, `none` when nothing matches. -/
def detect_jlpt_level (japanese : String) (_reading _english : Option String) : Option String :=
  let fromGrammar := grammar_jlpt.filterMap
    (fun p => if pyIn p.1.data japanese.data then some p.2 else none)
  let fromVocab := vocab_jlpt.filterMap
    (fun p => if p.2.any (fun v => pyIn v.data japanese.data) then some p.1 else none)
  pyMaxLevel (fromGrammar ++ fromVocab)

/-- ASCII digit value. -/
def digitVal (c : Char) : Nat := c.toNat - 48

/-- Python `f"{n:02d}"` for the 1-2 digit numbers at hand. -/
def pad2 (n : Nat) : String := if n < 10 then "0" ++ Nat.repr n else Nat.repr n

/-- `re.match(r'^(20\d{2}-\d{2}-\d{2})\s*$', s)`: a strict ISO date at the
start of the (already stripped) line followed only by whitespace. -/
def isoScan (s : List Char) : Option String :=
  match s with
  | c1 :: c2 :: c3 :: c4 :: c5 :: c6 :: c7 :: c8 :: c9 :: c10 :: rest =>
    if c1 == '2' && c2 == '0' && c3.isDigit && c4.isDigit && c5 == '-' &&
       c6.isDigit && c7.isDigit && c8 == '-' && c9.isDigit && c10.isDigit &&
       rest.all isSpace
    then some (String.mk [c1, c2, c3, c4, c5, c6, c7, c8, c9, c10]) else none
  | _ => none

/-- The fixed marker phrase of the legacy date header. -/
def lessonPhrase : List Char := "日本語のレッスン".data

/-- Day part `(\d{1,2})` of the legacy date regex (greedy, end of pattern). -/
def parseLegacyDay (m : Nat) (r : List Char) : Option (Nat × Nat) :=
  match r with
  | a :: b :: _ =>
    if a.isDigit then some (m, if b.isDigit then 10 * digitVal a + digitVal b else digitVal a)
    else none
  | [a] => if a.isDigit then some (m, digitVal a) else none
  | [] => none

/-- Attempt `日本語のレッスン\s*(\d{1,2})/(\d{1,2})` anchored at the current
position, with the regex's backtracking on the month group. -/
def tryLegacyAt (s : List Char) : Option (Nat × Nat) :=
  if lessonPhrase.isPrefixOf s then
    match (s.drop lessonPhrase.length).dropWhile isSpace with
    | a :: b :: c :: rest =>
      if a.isDigit && b.isDigit && c == '/' then
        parseLegacyDay (10 * digitVal a + digitVal b) rest
      else if a.isDigit && b == '/' then parseLegacyDay (digitVal a) (c :: rest)
      else none
    | _ => none
  else none

/-- `re.search` for the legacy header pattern: leftmost position at which the
whole pattern matches. -/
def legacySearch : List Char → Option (Nat × Nat)
  | [] => none
  | c :: rest =>
    match tryLegacyAt (c :: rest) with
    | some r => some r
    | none => legacySearch rest

/-- `parse_lesson_date`: ISO date first (`needs_year = false`), then the
legacy `MM-DD` form (`needs_year = true`). -/
def parse_lesson_date (line : String) : Option String × Bool :=
  match isoScan (pyStrip line).data with
  | some d => (some d, false)
  | none =>
    match legacySearch line.data with
    | some (m, d) => (some (pad2 m ++ "-" ++ pad2 d), true)
    | none => (none, false)

/-- `re.search(r'(20\d{2})', line)`: first (leftmost) `20XX` substring. -/
def firstYear : List Char → Option String
  | [] => none
  | c :: rest =>
    match c, rest with
    | '2', '0' :: a :: b :: _ =>
      if a.isDigit && b.isDigit then some (String.mk ['2', '0', a, b])
      else firstYear rest
    | _, _ => firstYear rest

/-- A provisional entry, exactly the dict built in `parse_file` (plus the `id`
key added after deduplication, defaulted to `""` until then). -/
structure Entry where
  japanese : String
  reading : Option String
  english : Option String
  entry_type : String
  lesson_date : Option String
  tags : List String
  grammar_patterns : List String
  jlpt_level : Option String
  context_note : Option String
  is_sub_entry : Bool
  source_line : Nat
  id : String
deriving DecidableEq

/-- Placeholder for the unreachable empty-group case of grouping. -/
def defaultEntry : Entry :=
  ⟨"", none, none, "", none, [], [], none, none, false, 0, ""⟩

/-- Python `list(set(l))` modelled as first-occurrence deduplication (the real
enumeration order depends on the per-process string-hash seed; see the header
comment). -/
def pySetList : List String → List String
  | [] => []
  | x :: xs => x :: (pySetList xs).filter (fun y => y ≠ x)

/-- `type_priority.get(t, 0)` from `merge_entries`. -/
def type_priority (t : String) : Nat :=
  if t = "sentence" then 3 else if t = "phrase" then 2
  else if t = "vocab" then 1 else if t = "note" then 0 else 0

/-- The translation rule of the merge loop, with Python's truthiness test
(`merged['english'] and entry['english']`): fill when the accumulator is
`None`; replace only when both are non-empty and the incoming string is
strictly longer. -/
def mergeEnglish (a b : Option String) : Option String :=
  match a, b with
  | none, some s => some s
  | none, none => none
  | some a1, some b1 =>
    if a1 ≠ "" ∧ b1 ≠ "" ∧ a1.length < b1.length then some b1 else some a1
  | some a1, none => some a1

/-- One iteration of the merge loop of `merge_entries` (the `lesson_date`
minimum and the `general` cleanup happen after the loop). -/
def mergeStep (acc e : Entry) : Entry :=
  { acc with
    reading := if acc.reading = none ∧ e.reading ≠ none then e.reading else acc.reading,
    english := mergeEnglish acc.english e.english,
    entry_type :=
      if type_priority acc.entry_type < type_priority e.entry_type then e.entry_type
      else acc.entry_type,
    tags := pySetList (acc.tags ++ e.tags),
    grammar_patterns := pySetList (acc.grammar_patterns ++ e.grammar_patterns),
    jlpt_level :=
      if acc.jlpt_level = none ∧ e.jlpt_level ≠ none then e.jlpt_level else acc.jlpt_level,
    context_note :=
      if acc.context_note = none ∧ e.context_note ≠ none then e.context_note
      else acc.context_note }

/-- `merge_entries`: fold the group left to right starting from its first
member, then overwrite `lesson_date` with the minimum of the present dates,
then drop `"general"` from the tags when they have grown past one element. -/
def merge_entries (first : Entry) (rest : List Entry) : Entry :=
  let m1 := rest.foldl mergeStep first
  let allDates := (first :: rest).filterMap Entry.lesson_date
  let m2 :=
    match allDates with
    | [] => m1
    | d :: ds => { m1 with lesson_date := some (ds.foldl minString d) }
  if 1 < m2.tags.length ∧ "general" ∈ m2.tags then
    { m2 with tags := m2.tags.erase "general" }
  else m2

/-- First-occurrence deduplication of the group keys (Python dict insertion
order in `grouped`). -/
def dedupFirst : List String → List String
  | [] => []
  | x :: xs => x :: (dedupFirst xs).filter (fun y => y ≠ x)

/-- Promote a group: singletons pass through, larger groups are merged. -/
def mergeGroup (g : List Entry) : Entry :=
  match g with
  | [] => defaultEntry
  | [e] => e
  | e :: rest => merge_entries e rest

/-- Sort key `e['lesson_date'] or '9999-99-99'` (Python truthiness: `None`
and the empty string both fall back to the sentinel). -/
def dateKey (e : Entry) : String :=
  match e.lesson_date with
  | some d => if d = "" then "9999-99-99" else d
  | none => "9999-99-99"

/-- Stable insertion placing `e` after every element whose key is `≤` its
own. -/
def insertEntry (e : Entry) : List Entry → List Entry
  | [] => [e]
  | y :: ys => if strLtB (dateKey e) (dateKey y) then e :: y :: ys else y :: insertEntry e ys

/-- Stable sort by `dateKey`, modelling Python's `list.sort(key=...)`. -/
def sortByDate (l : List Entry) : List Entry :=
  l.foldl (fun acc e => insertEntry e acc) []

/-- `deduplicate_entries`: group by `japanese` (first-occurrence key order),
promote each group, sort by earliest lesson date, and count merged
duplicates. -/
def deduplicate_entries (entries : List Entry) : List Entry × Nat :=
  let keys := dedupFirst (entries.map Entry.japanese)
  let groups := keys.map (fun k => entries.filter (fun e => e.japanese == k))
  let dedup := groups.map mergeGroup
  let dups := groups.foldl (fun a g => if 1 < g.length then a + (g.length - 1) else a) 0
  (sortByDate dedup, dups)

/-- `f"entry_{i:05d}"`. -/
def entryId (i : Nat) : String :=
  "entry_" ++ String.mk (List.replicate (5 - (Nat.repr i).length) '0') ++ Nat.repr i

/-- The id-assignment loop of `parse_file` (`enumerate(entries, 1)`). -/
def assignIds (l : List Entry) : List Entry :=
  (List.enumFrom 1 l).map (fun p => { p.2 with id := entryId p.1 })

/-- The driver context of `parse_file`: the running lesson date and year. -/
structure ParseState where
  currentDate : Option String
  currentYear : String
deriving DecidableEq

/-- Build the provisional entry dict of `parse_file`. -/
def mkEntry (p : PRec) (st : ParseState) (lineNum : Nat) (isSub : Bool) : Entry :=
  { japanese := p.japanese,
    reading := p.reading,
    english := p.english,
    entry_type := detect_entry_type p.japanese p.english,
    lesson_date := st.currentDate,
    tags := detect_scenarios p.japanese p.english,
    grammar_patterns := detect_grammar_patterns p.japanese,
    jlpt_level := detect_jlpt_level p.japanese p.reading p.english,
    context_note := none,
    is_sub_entry := isSub,
    source_line := lineNum,
    id := "" }

/-- Does the character list start with `c`? (`str.startswith` on one
character). -/
def startsWithL (s : List Char) (c : Char) : Bool :=
  match s with
  | x :: _ => x == c
  | [] => false

/-- The date-header and entry-line checks of the driver loop (everything after
the year-marker check). -/
def processRest (st : ParseState) (lineNum : Nat) (line : String) :
    ParseState × Option Entry :=
  match parse_lesson_date line with
  | (some d, needsYear) =>
    if needsYear then
      ({ currentDate := some (st.currentYear ++ "-" ++ d), currentYear := st.currentYear }, none)
    else
      ({ currentDate := some d, currentYear := String.mk (d.data.take 4) }, none)
  | (none, _) =>
    if startsWithL line.data '*' || (startsWithL line.data ' ' && pyIn "*".data line.data) then
      let isSub := startsWithL line.data ' ' || startsWithL line.data '\t'
      let l2 := pyLstrip line
      if !startsWithL l2.data '*' then (st, none)
      else
        match parse_entry_line l2 with
        | none => (st, none)
        | some p =>
          if p.japanese = "" then (st, none) else (st, some (mkEntry p st lineNum isSub))
    else (st, none)

/-- One iteration of the driver loop of `parse_file`: strip the line, skip it
when empty, consume year markers, then fall through to `processRest`. -/
def processLine (st : ParseState) (lineNum : Nat) (raw : String) :
    ParseState × Option Entry :=
  let line := pyStrip raw
  if line.data.isEmpty then (st, none)
  else
    match firstYear line.data with
    | some y =>
      if pyIn "年".data line.data || pyIn "ねん".data line.data then
        ({ st with currentYear := y }, none)
      else processRest st lineNum line
    | none => processRest st lineNum line

/-- The whole driver loop, threading the date/year context. -/
def driveLines : List (Nat × String) → ParseState → List Entry
  | [], _ => []
  | (n, raw) :: rest, st =>
    match processLine st n raw with
    | (st2, some e) => e :: driveLines rest st2
    | (st2, none) => driveLines rest st2

/-- The provisional entries gathered by `parse_file` (initial year `"2023"`,
no current date, 1-based line numbers). -/
def raw_entries (lines : List String) : List Entry :=
  driveLines (List.enumFrom 1 lines) ⟨none, "2023"⟩

/-- `parse_file` as a pure function of the list of input lines: gather the
provisional entries, deduplicate/merge/sort, and assign ids. -/
def parse_file (lines : List String) : List Entry :=
  assignIds (deduplicate_entries (raw_entries lines)).1

theorem charEq_of_toNat_eq {a b : Char} (h : a.toNat = b.toNat) : a = b :=
  Char.eq_of_val_eq (UInt32.toNat.inj h)

theorem strEq_of_data_eq {a b : String} (h : a.data = b.data) : a = b := by
  cases a; cases b; simp only at h; rw [h]

theorem lexLt_irrefl (l : List Char) : lexLt l l = false := by
  induction l with
  | nil => rfl
  | cons a as ih => simp [lexLt, ih]

theorem lexLt_asymm (a b : List Char) (h : lexLt a b = true) : lexLt b a = false := by
  induction a generalizing b with
  | nil =>
    cases b with
    | nil => simp [lexLt] at h
    | cons y ys => simp [lexLt]
  | cons x xs ih =>
    cases b with
    | nil => simp [lexLt] at h
    | cons y ys =>
      simp only [lexLt] at h ⊢
      rcases Nat.lt_trichotomy x.toNat y.toNat with h1 | h1 | h1
      · rw [if_neg (Nat.lt_asymm h1), if_pos h1]
      · rw [if_neg (by omega), if_neg (by omega)]
        rw [if_neg (by omega), if_neg (by omega)] at h
        exact ih ys h
      · rw [if_neg (Nat.lt_asymm h1), if_pos h1] at h
        exact absurd h (by simp)

theorem lexLt_trans (a b c : List Char) (h1 : lexLt a b = true) (h2 : lexLt b c = true) :
    lexLt a c = true := by
  induction a generalizing b c with
  | nil =>
    cases c with
    | nil =>
      cases b with
      | nil => exact h2
      | cons y ys => simp [lexLt] at h2
    | cons z zs => simp [lexLt]
  | cons x xs ih =>
    cases b with
    | nil => simp [lexLt] at h1
    | cons y ys =>
      cases c with
      | nil => simp [lexLt] at h2
      | cons z zs =>
        simp only [lexLt] at h1 h2 ⊢
        rcases Nat.lt_trichotomy x.toNat y.toNat with hxy | hxy | hxy <;>
          rcases Nat.lt_trichotomy y.toNat z.toNat with hyz | hyz | hyz
        all_goals first
          | (rw [if_pos (by omega)])
          | (rw [if_neg (by omega), if_pos (by omega)] at h1
             exact absurd h1 (by simp))
          | (rw [if_neg (by omega), if_pos (by omega)] at h2
             exact absurd h2 (by simp))
          | (rw [if_neg (by omega), if_neg (by omega)] at h1 h2
             rw [if_neg (by omega), if_neg (by omega)]
             exact ih ys zs h1 h2)

theorem lexLt_conn (a b : List Char) (h1 : lexLt a b = false) (h2 : lexLt b a = false) :
    a = b := by
  induction a generalizing b with
  | nil =>
    cases b with
    | nil => rfl
    | cons y ys => simp [lexLt] at h1
  | cons x xs ih =>
    cases b with
    | nil => simp [lexLt] at h2
    | cons y ys =>
      simp only [lexLt] at h1 h2
      rcases Nat.lt_trichotomy x.toNat y.toNat with hxy | hxy | hxy
      · rw [if_pos hxy] at h1; exact absurd h1 (by simp)
      · rw [if_neg (by omega), if_neg (by omega)] at h1 h2
        rw [charEq_of_toNat_eq hxy, ih ys h1 h2]
      · rw [if_pos hxy] at h2; exact absurd h2 (by simp)

theorem strLtB_irrefl (s : String) : strLtB s s = false := lexLt_irrefl s.data

theorem strLtB_asymm (a b : String) (h : strLtB a b = true) : strLtB b a = false :=
  lexLt_asymm a.data b.data h

theorem strLtB_conn (a b : String) (h1 : strLtB a b = false) (h2 : strLtB b a = false) :
    a = b :=
  strEq_of_data_eq (lexLt_conn a.data b.data h1 h2)

theorem strLtB_le_trans (a b c : String) (h1 : strLtB b a = false) (h2 : strLtB c b = false) :
    strLtB c a = false := by
  cases h3 : strLtB c a
  · rfl
  · exfalso
    cases h4 : strLtB a b
    · cases h5 : strLtB b a
      · have hab := strLtB_conn a b h4 h5
        rw [hab] at h3
        rw [h3] at h2
        exact absurd h2 (by simp)
      · rw [h5] at h1; exact absurd h1 (by simp)
    · have h6 := lexLt_trans c.data a.data b.data h3 h4
      rw [show lexLt c.data b.data = strLtB c b from rfl] at h6
      rw [h6] at h2
      exact absurd h2 (by simp)

theorem mem_insertEntry (x e : Entry) (l : List Entry) :
    x ∈ insertEntry e l ↔ x = e ∨ x ∈ l := by
  induction l with
  | nil => simp [insertEntry]
  | cons y ys ih =>
    simp only [insertEntry]
    split
    · simp
    · simp only [List.mem_cons, ih]
      tauto

theorem insertEntry_perm (e : Entry) (l : List Entry) :
    (insertEntry e l).Perm (e :: l) := by
  induction l with
  | nil => simp [insertEntry]
  | cons y ys ih =>
    simp only [insertEntry]
    split
    · exact List.Perm.refl _
    · exact (List.Perm.cons y ih).trans (List.Perm.swap e y ys)

theorem sortByDate_core_perm (l acc : List Entry) :
    (l.foldl (fun a e => insertEntry e a) acc).Perm (acc ++ l) := by
  induction l generalizing acc with
  | nil => simp
  | cons e t ih =>
    simp only [List.foldl_cons]
    refine (ih (insertEntry e acc)).trans ?_
    refine (List.Perm.append_right t (insertEntry_perm e acc)).trans ?_
    have : (e :: acc ++ t).Perm (acc ++ e :: t) := by
      simpa using List.perm_middle.symm
    exact this

theorem sortByDate_perm (l : List Entry) : (sortByDate l).Perm l := by
  simpa [sortByDate] using sortByDate_core_perm l []

/-- Sortedness predicate: pairwise, every earlier element's key is not
strictly above a later one's. -/
def SortedByDate (l : List Entry) : Prop :=
  l.Pairwise (fun x y => strLtB (dateKey y) (dateKey x) = false)

theorem insertEntry_sorted (e : Entry) (l : List Entry) (h : SortedByDate l) :
    SortedByDate (insertEntry e l) := by
  induction l with
  | nil => simp [SortedByDate, insertEntry]
  | cons y ys ih =>
    simp only [SortedByDate, insertEntry]
    rcases h with _ | ⟨hy, hys⟩
    split
    next hcmp =>
      refine List.Pairwise.cons ?_ (List.Pairwise.cons hy hys)
      intro z hz
      rcases List.mem_cons.mp hz with hz | hz
      · rw [hz]; exact strLtB_asymm _ _ hcmp
      · have h1 : strLtB (dateKey z) (dateKey y) = false := hy z hz
        have h2 : strLtB (dateKey y) (dateKey e) = false := strLtB_asymm _ _ hcmp
        exact strLtB_le_trans _ _ _ h2 h1
    next hcmp =>
      refine List.Pairwise.cons ?_ (ih hys)
      intro z hz
      rcases (mem_insertEntry z e ys).mp hz with hz | hz
      · rw [hz]
        exact Bool.not_eq_true _ ▸ (by simpa using hcmp)
      · exact hy z hz

theorem sortByDate_core_sorted (l acc : List Entry) (h : SortedByDate acc) :
    SortedByDate (l.foldl (fun a e => insertEntry e a) acc) := by
  induction l generalizing acc with
  | nil => exact h
  | cons e t ih => exact ih (insertEntry e acc) (insertEntry_sorted e acc h)

theorem sortByDate_sorted (l : List Entry) : SortedByDate (sortByDate l) :=
  sortByDate_core_sorted l [] (List.Pairwise.nil)

theorem mem_pySetList (x : String) (l : List String) : x ∈ pySetList l ↔ x ∈ l := by
  induction l with
  | nil => simp [pySetList]
  | cons a as ih =>
    simp only [pySetList, List.mem_cons, List.mem_filter, ih]
    by_cases hx : x = a
    · simp [hx]
    · simp [hx]

theorem pySetList_ne_nil (l : List String) (h : l ≠ []) : pySetList l ≠ [] := by
  cases l with
  | nil => exact absurd rfl h
  | cons a as => simp [pySetList]

theorem mem_dedupFirst (x : String) (l : List String) : x ∈ dedupFirst l ↔ x ∈ l := by
  induction l with
  | nil => simp [dedupFirst]
  | cons a as ih =>
    simp only [dedupFirst, List.mem_cons, List.mem_filter, ih]
    by_cases hx : x = a
    · simp [hx]
    · simp [hx]

theorem processLine_not_year (st : ParseState) (n : Nat) (raw : String)
    (h : firstYear (pyStrip raw).data = none ∨
      (pyIn "年".data (pyStrip raw).data || pyIn "ねん".data (pyStrip raw).data) = false)
    (hne : (pyStrip raw).data.isEmpty = false) :
    processLine st n raw = processRest st n (pyStrip raw) := by
  simp only [processLine, hne, Bool.false_eq_true, if_false]
  rcases h with h | h
  · rw [h]
  · cases hfy : firstYear (pyStrip raw).data with
    | none => rfl
    | some y => rw [h]; simp

/-- C10: a line containing a `20XX` token together with `年` or `ねん` is
consumed as a year marker — the running year is set to the first such token,
no entry is produced, and the check fires before the entry-line check (the
statement applies to bullet lines too, as the witness shows). -/
theorem year_marker_precedence (st : ParseState) (n : Nat) (raw : String) (y : String)
    (h1 : firstYear (pyStrip raw).data = some y)
    (h2 : (pyIn "年".data (pyStrip raw).data || pyIn "ねん".data (pyStrip raw).data) = true) :
    processLine st n raw = ({ st with currentYear := y }, none) := by
  have hne : (pyStrip raw).data.isEmpty = false := by
    cases hd : (pyStrip raw).data with
    | nil => rw [hd] at h1; simp [firstYear] at h1
    | cons a l => simp
  simp only [processLine, hne, Bool.false_eq_true, if_false, h1, h2, if_true]

theorem year_marker_precedence_witness :
    processLine ⟨none, "2023"⟩ 1 "* 2024年です" = (⟨none, "2024"⟩, none) :=
  year_marker_precedence ⟨none, "2023"⟩ 1 "* 2024年です" "2024" (by decide) (by decide)

/-- C7 (code bug): the driver strips each line before testing indentation, so
`is_sub_entry` is `false` even for entries whose bullet is preceded by a tab
or spaces; on `["\t* ねこ", " * いぬ"]` both produced records carry
`is_sub_entry = false` although the claim requires `true`. -/
theorem is_sub_entry_always_false_eval :
    (parse_file ["\t* ねこ", " * いぬ"]).map Entry.is_sub_entry = [false, false] := by
  decide

/-- C9 (code bug): on the duplicated line the merged record's `tags` list is
built by `list(set(...))` from two distinct topics, so its order depends on
the per-process string-hash seed; the evaluation shows the seed-sensitive
two-element set is actually reached. -/
theorem merged_tags_seed_sensitive_eval :
    (parse_file ["* 駅で食べます - eat at the station",
                 "* 駅で食べます - eat at the station"]).map
      (fun e => (e.tags.contains "restaurant", e.tags.contains "transportation", e.tags.length))
    = [(true, true, 2)] := by
  decide

/-- C4: a legacy date header composes the running year with the zero-padded
month/day; an ISO header becomes the current date and updates the running
year from its first four characters; concretely, a `2024` year marker then
`3/14` yields `2024-03-14`, and an ISO `2025-06-01` then `7/4` yields
`2025-07-04`. -/
theorem date_header_year_composition :
    (∀ (st : ParseState) (n : Nat) (raw : String) (m d : Nat),
      (firstYear (pyStrip raw).data = none ∨
        (pyIn "年".data (pyStrip raw).data || pyIn "ねん".data (pyStrip raw).data) = false) →
      isoScan (pyStrip (pyStrip raw)).data = none →
      legacySearch (pyStrip raw).data = some (m, d) →
      processLine st n raw =
        ({ currentDate := some (st.currentYear ++ "-" ++ (pad2 m ++ "-" ++ pad2 d)),
           currentYear := st.currentYear }, none))
    ∧ (∀ (st : ParseState) (n : Nat) (raw : String) (dt : String),
      (firstYear (pyStrip raw).data = none ∨
        (pyIn "年".data (pyStrip raw).data || pyIn "ねん".data (pyStrip raw).data) = false) →
      isoScan (pyStrip (pyStrip raw)).data = some dt →
      processLine st n raw =
        ({ currentDate := some dt, currentYear := String.mk (dt.data.take 4) }, none))
    ∧ (parse_file ["2024年", "日本語のレッスン 3/14", "* 行く"]).map Entry.lesson_date
        = [some "2024-03-14"]
    ∧ (parse_file ["2025-06-01", "日本語のレッスン 7/4", "* 行く"]).map Entry.lesson_date
        = [some "2025-07-04"] := by
  refine ⟨?_, ?_, by decide, by decide⟩
  · intro st n raw m d h1 h2 h3
    have hne : (pyStrip raw).data.isEmpty = false := by
      cases hd : (pyStrip raw).data with
      | nil => rw [hd] at h3; simp [legacySearch] at h3
      | cons a l => simp
    rw [processLine_not_year st n raw h1 hne]
    simp only [processRest, parse_lesson_date, h2, h3, if_true]
  · intro st n raw dt h1 h2
    have hne : (pyStrip raw).data.isEmpty = false := by
      cases hd : (pyStrip raw).data with
      | nil =>
        have : pyStrip (pyStrip raw) = pyStrip raw := by
          cases hp : pyStrip raw with
          | mk dat => rw [hp] at hd; simp only at hd; rw [hd] at hp ⊢; rfl
        rw [this, hd] at h2
        simp [isoScan] at h2
      | cons a l => simp
    rw [processLine_not_year st n raw h1 hne]
    simp only [processRest, parse_lesson_date, h2]
    simp

theorem date_header_year_composition_witness :
    processLine ⟨none, "2023"⟩ 1 "日本語のレッスン 5/6"
      = ({ currentDate := some ("2023" ++ "-" ++ (pad2 5 ++ "-" ++ pad2 6)),
           currentYear := "2023" }, none)
    ∧ processLine ⟨none, "2023"⟩ 2 "2026-01-02"
      = ({ currentDate := some "2026-01-02",
           currentYear := String.mk ("2026-01-02".data.take 4) }, none) :=
  ⟨date_header_year_composition.1 ⟨none, "2023"⟩ 1 "日本語のレッスン 5/6" 5 6
      (Or.inl (by decide)) (by decide) (by decide),
   date_header_year_composition.2.1 ⟨none, "2023"⟩ 2 "2026-01-02" "2026-01-02"
      (Or.inr (by decide)) (by decide)⟩

theorem isSpace_toNat_le (c : Char) (h : isSpace c = true) : c.toNat ≤ 0x3000 := by
  have hm : c ∈ pyWhitespace := by
    simpa [isSpace] using h
  fin_cases hm <;> decide

theorem has_kanji_not_allkana (s : String) (h : has_kanji s = true) :
    is_all_hiragana_katakana s = false := by
  obtain ⟨c, hc, hck⟩ := List.any_eq_true.mp h
  have hrange : 0x4E00 ≤ c.toNat ∧ c.toNat ≤ 0x9FAF := by simpa using hck
  have hsp : isSpace c = false := by
    cases hs : isSpace c
    · rfl
    · have := isSpace_toNat_le c hs; omega
  have hne : ∀ d : Char, d.toNat ≤ 0x3000 → (c == d) = false := by
    intro d hd
    cases hq : c == d
    · rfl
    · exfalso
      have hcd := eq_of_beq hq
      subst hcd
      omega
  have hmem : c ∈ s.data.filter
      (fun c => !(isSpace c || c == '-' || c == '.' || c == ',' || c == '?' || c == '!')) := by
    refine List.mem_filter.mpr ⟨hc, ?_⟩
    simp [hsp, hne '-' (by decide), hne '.' (by decide), hne ',' (by decide),
      hne '?' (by decide), hne '!' (by decide)]
  have hkana : isKanaBlock c = false := by
    simp only [isKanaBlock]
    simp only [Bool.or_eq_false_iff, Bool.and_eq_false_iff, decide_eq_false_iff_not]
    omega
  simp only [is_all_hiragana_katakana]
  have hall : (s.data.filter
      (fun c => !(isSpace c || c == '-' || c == '.' || c == ',' || c == '?' || c == '!'))).all
      isKanaBlock = false := by
    refine List.all_eq_false.mpr ⟨c, hmem, ?_⟩
    simp [hkana]
  rw [hall, Bool.and_false]

/-- C5 counterexample: the entry line `* hello` carries no furigana
annotation, its base text `hello` is neither phonetic nor kanji-bearing, yet
the produced reading is `hello` itself rather than absent. -/
theorem reading_latin_counterexample :
    (parse_entry_line "* hello").map PRec.reading = some (some "hello")
    ∧ findMatch "hello".data = none
    ∧ is_all_hiragana_katakana "hello" = false
    ∧ has_kanji "hello" = false := by
  refine ⟨by decide, by decide, by decide, by decide⟩

/-- C5 amended: the reading is present exactly when the assembled reading
buffer is kanji-free or the clean text is entirely phonetic; in particular on
an annotation-free text the stripped text itself becomes the reading whenever
it contains no kanji (so Latin-only base texts do get a reading). -/
theorem reading_presence_characterization :
    (∀ jp : String,
      ((resolveReading jp).2).isSome = true ↔
        (has_kanji (String.mk (pyStripL (furiganaBuffers jp.data).2)) = false
          ∨ is_all_hiragana_katakana (String.mk (pyStripL (furiganaBuffers jp.data).1)) = true))
    ∧ (∀ jp : String, findMatch jp.data = none →
        (resolveReading jp).2 =
          if has_kanji (pyStrip jp) = true then none else some (pyStrip jp)) := by
  constructor
  · intro jp
    by_cases hk : has_kanji (String.mk (pyStripL (furiganaBuffers jp.data).2)) = true
    · by_cases ha : is_all_hiragana_katakana (String.mk (pyStripL (furiganaBuffers jp.data).1)) = true
      · simp [resolveReading, extract_furigana, hk, ha]
      · simp [resolveReading, extract_furigana, hk, ha]
    · simp [resolveReading, extract_furigana, hk]
  · intro jp hnm
    have hb : furiganaBuffers jp.data = (jp.data, jp.data) := by
      rw [furiganaBuffers_eq, hnm]
    by_cases hk : has_kanji (pyStrip jp) = true
    · have hak := has_kanji_not_allkana _ hk
      simp only [resolveReading, extract_furigana, hb, if_pos hk]
      simp only [pyStrip] at hk hak ⊢
      simp [hk, hak]
    · simp only [resolveReading, extract_furigana, hb, if_neg hk]
      simp only [pyStrip] at hk ⊢
      simp [hk]

theorem reading_presence_characterization_witness :
    (resolveReading "abc").2
      = (if has_kanji (pyStrip "abc") = true then none else some (pyStrip "abc"))
    ∧ (resolveReading "abc").2 = some "abc" :=
  ⟨reading_presence_characterization.2 "abc" (by decide), by decide⟩

theorem splitOnce_spec (sep : List Char) (s a b : List Char)
    (h : splitOnce sep s = some (a, b)) :
    s = a ++ sep ++ b ∧ ∀ a2 b2, s = a2 ++ sep ++ b2 → a.length ≤ a2.length := by
  induction s generalizing a b with
  | nil => simp [splitOnce] at h
  | cons c rest ih =>
    simp only [splitOnce] at h
    split at h
    next hpre =>
      simp only [Option.some.injEq, Prod.mk.injEq] at h
      obtain ⟨ha, hb⟩ := h
      obtain ⟨t, ht⟩ := List.isPrefixOf_iff_prefix.mp hpre
      constructor
      · rw [← ha, ← hb, ← ht]
        simp [List.drop_left]
      · intro a2 b2 _
        rw [← ha]
        simp
    next hpre =>
      cases hsp : splitOnce sep rest with
      | none => rw [hsp] at h; exact absurd h (by simp)
      | some p =>
        rcases p with ⟨a0, b0⟩
        rw [hsp] at h
        simp only [Option.some.injEq, Prod.mk.injEq] at h
        obtain ⟨ha, hb⟩ := h
        have hb0 : splitOnce sep rest = some (a0, b) := by rw [hsp, hb]
        obtain ⟨ih1, ih2⟩ := ih a0 b hb0
        constructor
        · rw [← ha, ih1]; rfl
        · intro a2 b2 heq
          cases a2 with
          | nil =>
            exfalso
            apply hpre
            refine List.isPrefixOf_iff_prefix.mpr ⟨b2, ?_⟩
            simpa using heq.symm
          | cons c2 a3 =>
            simp only [List.cons_append, List.cons.injEq] at heq
            have := ih2 a3 b2 heq.2
            rw [← ha]
            simp only [List.length_cons]
            omega

/-- C6 counterexample: on `*あ- x）- y` the literal `" - "` does not occur,
the guard pattern `[）a-zA-Z]\- ` occurs only at the later `）- `, yet the
code splits at the **first** `"- "` (after `あ`), yielding translation
`x）- y` instead of the claimed `y`. -/
theorem split_dash_guard_counterexample :
    (parse_entry_line "*あ- x）- y").map PRec.english = some (some "x）- y")
    ∧ splitOnce sdsSep (pyStrip (stripBullet "*あ- x）- y")).data = none
    ∧ dashGuard (pyStrip (stripBullet "*あ- x）- y")).data = true
    ∧ some (some "x）- y") ≠ some (some "y") := by
  refine ⟨by decide, by decide, by decide, by decide⟩

/-- C6 amended: the `" - "` split happens at the first occurrence of `" - "`;
otherwise, when the `[）a-zA-Z]\- ` guard matches anywhere, the split happens
at the first occurrence of `"- "` in the whole line (which may lie before the
guard's own match, as the counterexample shows); otherwise there is no split
and the translation is absent. -/
theorem split_priority_first_dash_space :
    (∀ (line : String) (a b : List Char),
      splitOnce sdsSep (pyStrip (stripBullet line)).data = some (a, b) →
      (parse_entry_line line).map PRec.english = some (some (pyStrip (String.mk b)))
        ∧ (pyStrip (stripBullet line)).data = a ++ sdsSep ++ b
        ∧ ∀ a2 b2, (pyStrip (stripBullet line)).data = a2 ++ sdsSep ++ b2 →
            a.length ≤ a2.length)
    ∧ (∀ (line : String) (a b : List Char),
      splitOnce sdsSep (pyStrip (stripBullet line)).data = none →
      dashGuard (pyStrip (stripBullet line)).data = true →
      splitOnce dsSep (pyStrip (stripBullet line)).data = some (a, b) →
      (parse_entry_line line).map PRec.english = some (some (pyStrip (String.mk b)))
        ∧ (pyStrip (stripBullet line)).data = a ++ dsSep ++ b
        ∧ ∀ a2 b2, (pyStrip (stripBullet line)).data = a2 ++ dsSep ++ b2 →
            a.length ≤ a2.length)
    ∧ (∀ line : String,
      (pyStrip (stripBullet line)).data ≠ [] →
      splitOnce sdsSep (pyStrip (stripBullet line)).data = none →
      dashGuard (pyStrip (stripBullet line)).data = false →
      (parse_entry_line line).map PRec.english = some none) := by
  refine ⟨?_, ?_, ?_⟩
  · intro line a b hs
    have hne : (pyStrip (stripBullet line)).data.isEmpty = false := by
      cases hd : (pyStrip (stripBullet line)).data with
      | nil => rw [hd] at hs; simp [splitOnce] at hs
      | cons x xs => simp
    refine ⟨?_, (splitOnce_spec sdsSep _ a b hs).1, (splitOnce_spec sdsSep _ a b hs).2⟩
    simp only [parse_entry_line, hne, Bool.false_eq_true, if_false, hs, Option.map_some]
    rfl
  · intro line a b hno hg hs
    have hne : (pyStrip (stripBullet line)).data.isEmpty = false := by
      cases hd : (pyStrip (stripBullet line)).data with
      | nil => rw [hd] at hs; simp [splitOnce] at hs
      | cons x xs => simp
    have hin : pyIn dsSep (pyStrip (stripBullet line)).data = true := by
      simp [pyIn, hs]
    refine ⟨?_, (splitOnce_spec dsSep _ a b hs).1, (splitOnce_spec dsSep _ a b hs).2⟩
    simp only [parse_entry_line, hne, Bool.false_eq_true, if_false, hno, hin, hg,
      Bool.and_self, if_true, hs, Option.map_some]
    rfl
  · intro line hne0 hno hg
    have hne : (pyStrip (stripBullet line)).data.isEmpty = false := by
      cases hd : (pyStrip (stripBullet line)).data with
      | nil => exact absurd hd hne0
      | cons x xs => simp
    simp only [parse_entry_line, hne, Bool.false_eq_true, if_false, hno, hg,
      Bool.and_false, Option.map_some]
    rfl

theorem split_priority_first_dash_space_witness :
    (parse_entry_line "* ねこ - cat").map PRec.english
      = some (some (pyStrip (String.mk "cat".data)))
    ∧ (pyStrip (stripBullet "* ねこ - cat")).data = "ねこ".data ++ sdsSep ++ "cat".data
    ∧ ∀ a2 b2, (pyStrip (stripBullet "* ねこ - cat")).data = a2 ++ sdsSep ++ b2 →
        ("ねこ".data).length ≤ a2.length :=
  split_priority_first_dash_space.1 "* ねこ - cat" "ねこ".data "cat".data (by decide)

/-- Spec-side translation precedence rule, written from the claim's words
(fill from incoming when the accumulator's is absent; longer string when both
are present; keep the first-seen string on length ties).  It is compared with
the source-side `mergeEnglish` below. -/
def specTranslationStep : Option String → Option String → Option String
  | none, b => b
  | some a, none => some a
  | some a, some b => if a.length < b.length then some b else some a

theorem foldl_mergeStep_english (first : Entry) (rest : List Entry) :
    (rest.foldl mergeStep first).english
      = (rest.map Entry.english).foldl mergeEnglish first.english := by
  induction rest generalizing first with
  | nil => rfl
  | cons e t ih =>
    simp only [List.foldl_cons, List.map_cons]
    rw [ih]
    rfl

theorem foldl_mergeStep_lesson_date (first : Entry) (rest : List Entry) :
    (rest.foldl mergeStep first).lesson_date = first.lesson_date := by
  induction rest generalizing first with
  | nil => rfl
  | cons e t ih => simp only [List.foldl_cons]; rw [ih]; rfl

theorem foldl_mergeStep_japanese (first : Entry) (rest : List Entry) :
    (rest.foldl mergeStep first).japanese = first.japanese := by
  induction rest generalizing first with
  | nil => rfl
  | cons e t ih => simp only [List.foldl_cons]; rw [ih]; rfl

theorem specStep_eq_mergeEnglish (a b : Option String) (ha : a ≠ some "") (hb : b ≠ some "") :
    mergeEnglish a b = specTranslationStep a b ∧ mergeEnglish a b ≠ some "" := by
  cases a with
  | none =>
    cases b with
    | none => exact ⟨rfl, by simp [mergeEnglish]⟩
    | some b1 => exact ⟨rfl, by simpa [mergeEnglish] using hb⟩
  | some a1 =>
    cases b with
    | none => exact ⟨rfl, by simpa [mergeEnglish] using ha⟩
    | some b1 =>
      have ha1 : a1 ≠ "" := by simpa using ha
      have hb1 : b1 ≠ "" := by simpa using hb
      by_cases hl : a1.length < b1.length
      · constructor
        · simp [mergeEnglish, specTranslationStep, ha1, hb1, hl]
        · simpa [mergeEnglish, ha1, hb1, hl] using hb1
      · constructor
        · simp [mergeEnglish, specTranslationStep, hl]
        · simpa [mergeEnglish, hl] using ha1

theorem foldl_english_spec (a : Option String) (l : List (Option String))
    (ha : a ≠ some "") (hl : ∀ x ∈ l, x ≠ some "") :
    l.foldl mergeEnglish a = l.foldl specTranslationStep a := by
  induction l generalizing a with
  | nil => rfl
  | cons x t ih =>
    have hx := hl x (by simp)
    obtain ⟨heq, hne⟩ := specStep_eq_mergeEnglish a x ha hx
    simp only [List.foldl_cons, heq]
    exact ih (specTranslationStep a x) (heq ▸ hne) (fun y hy => hl y (by simp [hy]))

theorem merge_entries_english (first : Entry) (rest : List Entry) :
    (merge_entries first rest).english = (rest.foldl mergeStep first).english := by
  simp only [merge_entries]
  cases hd : (first :: rest).filterMap Entry.lesson_date with
  | nil => split <;> rfl
  | cons d ds => split <;> rfl

theorem merge_entries_date (first : Entry) (rest : List Entry) :
    (merge_entries first rest).lesson_date =
      match (first :: rest).filterMap Entry.lesson_date with
      | [] => first.lesson_date
      | d :: ds => some (ds.foldl minString d) := by
  simp only [merge_entries]
  cases hd : (first :: rest).filterMap Entry.lesson_date with
  | nil =>
    have := foldl_mergeStep_lesson_date first rest
    split <;> simpa using this
  | cons d ds => split <;> rfl

theorem foldl_minString_spec (ds : List String) : ∀ d : String,
    (ds.foldl minString d) ∈ d :: ds
      ∧ ∀ x ∈ d :: ds, strLtB x (ds.foldl minString d) = false := by
  induction ds with
  | nil =>
    intro d
    refine ⟨by simp, ?_⟩
    intro x hx
    simp only [List.mem_cons, List.not_mem_nil, or_false] at hx
    simp only [List.foldl_nil]
    rw [hx]
    exact strLtB_irrefl d
  | cons y t ih =>
    intro d
    obtain ⟨ihm, ihle⟩ := ih (minString d y)
    simp only [List.foldl_cons]
    have hminmem : minString d y = d ∨ minString d y = y := by
      unfold minString
      split <;> simp
    have hmem2 : t.foldl minString (minString d y) ∈ d :: y :: t := by
      rcases List.mem_cons.mp ihm with h | h
      · rcases hminmem with h2 | h2 <;> rw [h, h2] <;> simp
      · simp [h]
    refine ⟨hmem2, ?_⟩
    have hfin : strLtB (minString d y) (t.foldl minString (minString d y)) = false :=
      ihle _ (by simp)
    have hd_le : strLtB d (t.foldl minString (minString d y)) = false := by
      cases hcmp : strLtB y d with
      | false =>
        have h2 : minString d y = d := by simp [minString, hcmp]
        rw [h2] at hfin ⊢
        exact hfin
      | true =>
        have h2 : minString d y = y := by simp [minString, hcmp]
        rw [h2] at hfin ⊢
        exact strLtB_le_trans _ y d hfin (strLtB_asymm y d hcmp)
    have hy_le : strLtB y (t.foldl minString (minString d y)) = false := by
      cases hcmp : strLtB y d with
      | true =>
        have h2 : minString d y = y := by simp [minString, hcmp]
        rw [h2] at hfin ⊢
        exact hfin
      | false =>
        have h2 : minString d y = d := by simp [minString, hcmp]
        rw [h2] at hfin ⊢
        exact strLtB_le_trans _ d y hfin hcmp
    intro x hx
    rcases List.mem_cons.mp hx with hx | hx
    · rw [hx]
      exact hd_le
    rcases List.mem_cons.mp hx with hx | hx
    · rw [hx]
      exact hy_le
    · exact ihle x (by simp [hx])



/-- Every date string the driver ever composes starts with `"20"`. -/
def Starts20 (s : String) : Prop := ∃ t, s.data = '2' :: '0' :: t

theorem firstYear_starts20 (s : List Char) (y : String) (h : firstYear s = some y) :
    Starts20 y := by
  induction s with
  | nil => simp [firstYear] at h
  | cons c rest ih =>
    unfold firstYear at h
    split at h
    next a b t2 =>
      split at h
      · have hy := Option.some.inj h
        exact ⟨[a, b], by rw [← hy]⟩
      · exact ih h
    next => exact ih h

theorem isoScan_starts20 (s : List Char) (dt : String) (h : isoScan s = some dt) :
    Starts20 dt ∧ Starts20 (String.mk (dt.data.take 4)) := by
  unfold isoScan at h
  split at h
  next c1 c2 c3 c4 c5 c6 c7 c8 c9 c10 rest =>
    split at h
    next hguard =>
      have hy := Option.some.inj h
      simp only [Bool.and_eq_true, beq_iff_eq] at hguard
      obtain ⟨⟨⟨⟨⟨⟨⟨⟨⟨⟨h1, h2⟩, _⟩, _⟩, _⟩, _⟩, _⟩, _⟩, _⟩, _⟩, _⟩ := hguard
      subst h1; subst h2
      constructor
      · exact ⟨[c3, c4, c5, c6, c7, c8, c9, c10], by rw [← hy]⟩
      · exact ⟨[c3, c4], by rw [← hy]; rfl⟩
    · exact absurd h (by simp)
  next => exact absurd h (by simp)

theorem starts20_sentinel (d : String) (h : Starts20 d) :
    d ≠ "" ∧ strLtB d "9999-99-99" = true := by
  obtain ⟨t, ht⟩ := h
  constructor
  · intro he
    rw [he] at ht
    simp at ht
  · show lexLt d.data "9999-99-99".data = true
    rw [ht, show "9999-99-99".data = '9' :: "999-99-99".data from rfl]
    simp only [lexLt]
    rw [if_pos (by decide)]

theorem parse_lesson_date_iso_inv (line : String) (d : String)
    (h : parse_lesson_date line = (some d, false)) :
    isoScan (pyStrip line).data = some d := by
  unfold parse_lesson_date at h
  split at h
  next d0 hiso =>
    have := Prod.mk.injEq _ _ _ _ ▸ h
    simp only [Prod.mk.injEq, Option.some.injEq] at this
    rw [hiso, this.1]
  next hiso =>
    split at h
    next m dd hleg => simp only [Prod.mk.injEq] at h; exact absurd h.2 (by simp)
    next hleg => simp only [Prod.mk.injEq] at h; exact absurd h.1 (by simp)

theorem parse_lesson_date_legacy_inv (line : String) (d : String)
    (h : parse_lesson_date line = (some d, true)) :
    ∃ m dd, legacySearch line.data = some (m, dd) ∧ d = pad2 m ++ "-" ++ pad2 dd := by
  unfold parse_lesson_date at h
  split at h
  next d0 hiso => simp only [Prod.mk.injEq] at h; exact absurd h.2 (by simp)
  next hiso =>
    split at h
    next m dd hleg =>
      simp only [Prod.mk.injEq, Option.some.injEq] at h
      exact ⟨m, dd, hleg, h.1.symm⟩
    next hleg => simp only [Prod.mk.injEq] at h; exact absurd h.1 (by simp)

theorem processRest_cases (st : ParseState) (n : Nat) (line : String) :
    (∃ dv, parse_lesson_date line = (some dv, true) ∧
      processRest st n line =
        ({ currentDate := some (st.currentYear ++ "-" ++ dv),
           currentYear := st.currentYear }, none))
    ∨ (∃ dv, parse_lesson_date line = (some dv, false) ∧
      processRest st n line =
        ({ currentDate := some dv, currentYear := String.mk (dv.data.take 4) }, none))
    ∨ ((processRest st n line).1 = st ∧
        ∀ e, (processRest st n line).2 = some e → e.lesson_date = st.currentDate) := by
  rcases hpd : parse_lesson_date line with ⟨dopt, ny⟩
  cases dopt with
  | some dv =>
    cases ny with
    | true => exact Or.inl ⟨dv, rfl, by simp [processRest, hpd]⟩
    | false => exact Or.inr (Or.inl ⟨dv, rfl, by simp [processRest, hpd]⟩)
  | none =>
    refine Or.inr (Or.inr ⟨?_, ?_⟩)
    · simp only [processRest, hpd]
      split
      · split
        · rfl
        · split
          · rfl
          · split
            · rfl
            · rfl
      · rfl
    · intro e he
      revert he
      simp only [processRest, hpd]
      split
      · split
        · intro he; exact absurd he (by simp)
        · split
          · intro he; exact absurd he (by simp)
          · split
            · intro he; exact absurd he (by simp)
            · intro he
              rw [← Option.some.inj he]
              rfl
      · intro he; exact absurd he (by simp)

theorem processLine_cases (st : ParseState) (n : Nat) (raw : String) :
    processLine st n raw = (st, none)
    ∨ (∃ y, firstYear (pyStrip raw).data = some y
        ∧ processLine st n raw = ({ st with currentYear := y }, none))
    ∨ processLine st n raw = processRest st n (pyStrip raw) := by
  cases he : (pyStrip raw).data.isEmpty with
  | true => exact Or.inl (by simp [processLine, he])
  | false =>
    cases hfy : firstYear (pyStrip raw).data with
    | none => exact Or.inr (Or.inr (by simp [processLine, he, hfy]))
    | some y =>
      cases hin : (pyIn "年".data (pyStrip raw).data || pyIn "ねん".data (pyStrip raw).data) with
      | true => exact Or.inr (Or.inl ⟨y, rfl, by simp [processLine, he, hfy, hin]⟩)
      | false => exact Or.inr (Or.inr (by simp [processLine, he, hfy, hin]))

theorem processRest_preserves (st : ParseState) (n : Nat) (line : String)
    (hy : Starts20 st.currentYear)
    (hd : ∀ d, st.currentDate = some d → Starts20 d) :
    (Starts20 (processRest st n line).1.currentYear
      ∧ ∀ d, (processRest st n line).1.currentDate = some d → Starts20 d)
    ∧ ∀ e, (processRest st n line).2 = some e →
        ∀ d, e.lesson_date = some d → Starts20 d := by
  rcases processRest_cases st n line with ⟨dv, hpd, heq⟩ | ⟨dv, hpd, heq⟩ | ⟨hst, hent⟩
  · rw [heq]
    obtain ⟨t, ht⟩ := hy
    refine ⟨⟨⟨t, ht⟩, ?_⟩, ?_⟩
    · intro d hdq
      have hdd : st.currentYear ++ "-" ++ dv = d := Option.some.inj hdq
      refine ⟨t ++ '-' :: dv.data, ?_⟩
      rw [← hdd]
      simp [String.data_append, ht]
    · intro e he
      exact absurd he (by simp)
  · have hiso := parse_lesson_date_iso_inv line dv hpd
    obtain ⟨h20, h20t⟩ := isoScan_starts20 _ dv hiso
    rw [heq]
    refine ⟨⟨h20t, ?_⟩, ?_⟩
    · intro d hdq
      rw [← Option.some.inj hdq]
      exact h20
    · intro e he
      exact absurd he (by simp)
  · refine ⟨⟨by rw [hst]; exact hy, by rw [hst]; exact hd⟩, ?_⟩
    intro e he d hed
    apply hd d
    rw [← hed]
    exact (hent e he).symm

theorem processLine_preserves (st : ParseState) (n : Nat) (raw : String)
    (hy : Starts20 st.currentYear)
    (hd : ∀ d, st.currentDate = some d → Starts20 d) :
    (Starts20 (processLine st n raw).1.currentYear
      ∧ ∀ d, (processLine st n raw).1.currentDate = some d → Starts20 d)
    ∧ ∀ e, (processLine st n raw).2 = some e →
        ∀ d, e.lesson_date = some d → Starts20 d := by
  rcases processLine_cases st n raw with heq | ⟨y, hfy, heq⟩ | heq
  · rw [heq]
    exact ⟨⟨hy, hd⟩, fun e he => absurd he (by simp)⟩
  · rw [heq]
    exact ⟨⟨firstYear_starts20 _ y hfy, hd⟩, fun e he => absurd he (by simp)⟩
  · rw [heq]
    exact processRest_preserves st n (pyStrip raw) hy hd

theorem driveLines_dates (L : List (Nat × String)) : ∀ st : ParseState,
    Starts20 st.currentYear → (∀ d, st.currentDate = some d → Starts20 d) →
    ∀ e ∈ driveLines L st, ∀ d, e.lesson_date = some d → Starts20 d := by
  induction L with
  | nil =>
    intro st _ _ e he
    simp [driveLines] at he
  | cons p rest ih =>
    intro st hy hd e he
    rcases p with ⟨n, raw⟩
    rcases hpl : processLine st n raw with ⟨st2, eopt⟩
    obtain ⟨⟨hy2, hd2⟩, hent⟩ := processLine_preserves st n raw hy hd
    rw [hpl] at hy2 hd2 hent
    simp only [driveLines, hpl] at he
    cases eopt with
    | some e0 =>
      rcases List.mem_cons.mp he with he | he
      · rw [he]
        exact hent e0 rfl
      · exact ih st2 hy2 hd2 e he
    | none => exact ih st2 hy2 hd2 e he

theorem raw_entries_dates (lines : List String) :
    ∀ e ∈ raw_entries lines, ∀ d, e.lesson_date = some d → Starts20 d := by
  refine driveLines_dates (List.enumFrom 1 lines) ⟨none, "2023"⟩ ⟨['2', '3'], rfl⟩ ?_
  intro d hdq
  exact absurd hdq (by simp)

theorem mergeGroup_date_cases (g : List Entry) :
    (mergeGroup g).lesson_date = none
    ∨ ∃ e ∈ g, e.lesson_date = (mergeGroup g).lesson_date := by
  cases g with
  | nil => exact Or.inl rfl
  | cons e r =>
    cases r with
    | nil => exact Or.inr ⟨e, by simp, rfl⟩
    | cons f t =>
      have hmg : mergeGroup (e :: f :: t) = merge_entries e (f :: t) := rfl
      have hdate := merge_entries_date e (f :: t)
      cases hfm : (e :: f :: t).filterMap Entry.lesson_date with
      | nil =>
        rw [hfm] at hdate
        simp only [] at hdate
        have he0 : e.lesson_date = none :=
          (List.filterMap_eq_nil_iff.mp hfm) e (by simp)
        left
        rw [hmg, hdate, he0]
      | cons d ds =>
        rw [hfm] at hdate
        simp only [] at hdate
        right
        have hm : ds.foldl minString d ∈ d :: ds := (foldl_minString_spec ds d).1
        rw [← hfm] at hm
        obtain ⟨a, ha, hfa⟩ := List.mem_filterMap.mp hm
        exact ⟨a, ha, by rw [hfa, hmg, hdate]⟩

theorem deduplicate_dates (es : List Entry) :
    ∀ r ∈ (deduplicate_entries es).1, ∀ d, r.lesson_date = some d →
      ∃ e ∈ es, e.lesson_date = some d := by
  intro r hr d hrd
  simp only [deduplicate_entries] at hr
  have hr2 := (sortByDate_perm _).mem_iff.mp hr
  obtain ⟨grp, hgrp, hgr⟩ := List.mem_map.mp hr2
  obtain ⟨k, _, hkg⟩ := List.mem_map.mp hgrp
  rcases mergeGroup_date_cases grp with hnone | ⟨e, he, hed⟩
  · rw [← hgr, hnone] at hrd
    exact absurd hrd (by simp)
  · refine ⟨e, ?_, ?_⟩
    · rw [← hkg] at he
      exact (List.mem_filter.mp he).1
    · rw [hed, hgr]
      exact hrd

theorem assignIds_get? (l : List Entry) (i : Nat) :
    (assignIds l).get? i = (l.get? i).map (fun e => { e with id := entryId (i + 1) }) := by
  unfold assignIds
  rw [List.get?_map, List.get?_enumFrom]
  cases l.get? i with
  | none => rfl
  | some e => simp [Nat.add_comm]

theorem mem_assignIds (r : Entry) (l : List Entry) (h : r ∈ assignIds l) :
    ∃ e ∈ l, r = { e with id := r.id } := by
  unfold assignIds at h
  obtain ⟨p, hp, hpr⟩ := List.mem_map.mp h
  refine ⟨p.2, ?_, ?_⟩
  · have := List.mem_map_of_mem Prod.snd hp
    rwa [List.enumFrom_map_snd] at this
  · rw [← hpr]

theorem pairwise_assignIds (l : List Entry) (h : SortedByDate l) :
    SortedByDate (assignIds l) := by
  unfold SortedByDate at h ⊢
  unfold assignIds
  rw [List.pairwise_map]
  rw [← List.enumFrom_map_snd 1 l] at h
  rw [List.pairwise_map] at h
  exact h

/-- C3: the final output of the parser is sorted ascending by the
`9999-99-99`-sentinel date key, records with an absent `lesson_date` all come
after every dated record, and the `i`-th record (1-based) receives id
`entry_` + the zero-padded ordinal. -/
theorem final_sorted_ids (lines : List String) :
    (parse_file lines).Pairwise (fun x y => strLtB (dateKey y) (dateKey x) = false)
    ∧ (∀ i j (e1 e2 : Entry), i < j →
        (parse_file lines).get? i = some e1 → (parse_file lines).get? j = some e2 →
        e1.lesson_date = none → e2.lesson_date = none)
    ∧ (∀ i (e : Entry), (parse_file lines).get? i = some e → e.id = entryId (i + 1)) := by
  have hdates : ∀ r ∈ parse_file lines, ∀ d, r.lesson_date = some d → Starts20 d := by
    intro r hr d hrd
    obtain ⟨e, he, her⟩ := mem_assignIds r _ hr
    have hed : e.lesson_date = some d := by
      rw [her] at hrd
      exact hrd
    obtain ⟨e2, he2, he2d⟩ := deduplicate_dates (raw_entries lines) e he d hed
    exact raw_entries_dates lines e2 he2 d he2d
  have hsorted : (parse_file lines).Pairwise
      (fun x y => strLtB (dateKey y) (dateKey x) = false) :=
    pairwise_assignIds _ (sortByDate_sorted _)
  refine ⟨hsorted, ?_, ?_⟩
  · intro i j e1 e2 hij h1 h2 h1n
    by_contra h2n
    cases h2d : e2.lesson_date with
    | none => exact h2n h2d
    | some d =>
      have h20 := hdates e2 (List.get?_mem h2) d h2d
      obtain ⟨hdne, hdlt⟩ := starts20_sentinel d h20
      have hR : strLtB (dateKey e2) (dateKey e1) = false := by
        rw [List.pairwise_iff_get] at hsorted
        obtain ⟨hi1, hg1⟩ := List.get?_eq_some.mp h1
        obtain ⟨hi2, hg2⟩ := List.get?_eq_some.mp h2
        have := hsorted ⟨i, hi1⟩ ⟨j, hi2⟩ hij
        rwa [hg1, hg2] at this
      have hk1 : dateKey e1 = "9999-99-99" := by simp [dateKey, h1n]
      have hk2 : dateKey e2 = d := by simp [dateKey, h2d, hdne]
      rw [hk1, hk2, hdlt] at hR
      exact absurd hR (by simp)
  · intro i e he
    rw [show parse_file lines = assignIds (deduplicate_entries (raw_entries lines)).1 from rfl,
      assignIds_get?] at he
    cases hg : ((deduplicate_entries (raw_entries lines)).1.get? i) with
    | none => rw [hg] at he; exact absurd he (by simp)
    | some e0 =>
      rw [hg] at he
      have := Option.some.inj he
      rw [← this]

theorem final_sorted_ids_witness :
    (parse_file ["2023-05-01", "* 食べる", "* xyz"]).get? 0
        = some { japanese := "食べる", reading := none, english := none,
                 entry_type := "vocab", lesson_date := some "2023-05-01",
                 tags := ["restaurant"], grammar_patterns := [],
                 jlpt_level := some "N5", context_note := none,
                 is_sub_entry := false, source_line := 2, id := "entry_00001" }
    ∧ ({ japanese := "食べる", reading := none, english := none,
         entry_type := "vocab", lesson_date := some "2023-05-01",
         tags := ["restaurant"], grammar_patterns := [],
         jlpt_level := some "N5", context_note := none,
         is_sub_entry := false, source_line := 2, id := "entry_00001" } : Entry).id
        = entryId (0 + 1) :=
  ⟨by decide,
   (final_sorted_ids ["2023-05-01", "* 食べる", "* xyz"]).2.2 0 _ (by decide)⟩

theorem dropWhile_head_false (p : Char → Bool) (l : List Char) (c : Char) (t : List Char)
    (h : l.dropWhile p = c :: t) : p c = false := by
  induction l with
  | nil => simp [List.dropWhile] at h
  | cons x xs ih =>
    rw [List.dropWhile_cons] at h
    split at h
    · exact ih h
    · next hx =>
      have hcx := (List.cons.inj h).1
      rw [← hcx]
      simpa using hx

theorem mem_dropWhile_of_not (p : Char → Bool) (l : List Char) (c : Char)
    (hc : c ∈ l) (hp : p c = false) : c ∈ l.dropWhile p := by
  induction l with
  | nil => simp at hc
  | cons x xs ih =>
    rw [List.dropWhile_cons]
    split
    · next hx =>
      rcases List.mem_cons.mp hc with h | h
      · rw [h] at hp
        rw [hp] at hx
        simp at hx
      · exact ih h
    · exact hc

theorem pyStripL_ne_nil (s : List Char) (c : Char) (hc : c ∈ s) (hp : isSpace c = false) :
    pyStripL s ≠ [] := by
  unfold pyStripL
  intro h
  have h1 : c ∈ s.dropWhile isSpace := mem_dropWhile_of_not _ s c hc hp
  have h2 : c ∈ (s.dropWhile isSpace).reverse := List.mem_reverse.mpr h1
  have h3 : c ∈ ((s.dropWhile isSpace).reverse).dropWhile isSpace :=
    mem_dropWhile_of_not _ _ c h2 hp
  rw [List.reverse_eq_nil_iff.mp h] at h3
  simp at h3

theorem pyStripL_reverse (s : List Char) :
    (pyStripL s).reverse = ((s.dropWhile isSpace).reverse).dropWhile isSpace := by
  unfold pyStripL
  rw [List.reverse_reverse]

theorem pyStripL_head_rev (s : List Char) (c : Char) (t : List Char)
    (h : (pyStripL s).reverse = c :: t) : isSpace c = false := by
  rw [pyStripL_reverse] at h
  exact dropWhile_head_false _ _ _ _ h

theorem stripped_split_b_nonspace (s : List Char) (sep a b : List Char)
    (hs : pyStripL s = a ++ sep ++ b)
    (hsep : ∃ s1, sep.reverse = ' ' :: s1) :
    ∃ c ∈ b, isSpace c = false := by
  have hrev : (pyStripL s).reverse = b.reverse ++ (sep.reverse ++ a.reverse) := by
    rw [hs]
    simp
  cases hb : b.reverse with
  | nil =>
    obtain ⟨s1, hs1⟩ := hsep
    rw [hb, hs1] at hrev
    simp only [List.nil_append, List.cons_append] at hrev
    have := pyStripL_head_rev s ' ' _ hrev
    exact absurd this (by decide)
  | cons cb tb =>
    rw [hb] at hrev
    simp only [List.cons_append] at hrev
    have hsp := pyStripL_head_rev s cb _ hrev
    refine ⟨cb, ?_, hsp⟩
    have hcb : cb ∈ b.reverse := by
      rw [hb]
      simp
    exact List.mem_reverse.mp hcb

theorem pyStrip_b_ne_empty (s b : List Char) (sep a : List Char)
    (hs : pyStripL s = a ++ sep ++ b)
    (hsep : ∃ s1, sep.reverse = ' ' :: s1) :
    pyStrip (String.mk b) ≠ "" := by
  obtain ⟨c, hc, hcp⟩ := stripped_split_b_nonspace s sep a b hs hsep
  intro h
  have hd : (pyStrip (String.mk b)).data = [] := by rw [h]
  exact pyStripL_ne_nil b c hc hcp hd

theorem parse_entry_line_no_empty_english (line : String) (p : PRec)
    (h : parse_entry_line line = some p) : p.english ≠ some "" := by
  simp only [parse_entry_line] at h
  cases hne : (pyStrip (stripBullet line)).data.isEmpty with
  | true =>
    rw [hne] at h
    exact absurd h (by simp)
  | false =>
    rw [hne] at h
    simp only [Bool.false_eq_true, if_false] at h
    cases hs1 : splitOnce sdsSep (pyStrip (stripBullet line)).data with
    | some q =>
      rcases q with ⟨a, b⟩
      rw [hs1] at h
      have hp := Option.some.inj h
      have he : p.english = some (pyStrip (String.mk b)) := by
        rw [← hp]
      rw [he]
      intro hcon
      have : pyStrip (String.mk b) = "" := Option.some.inj hcon
      exact pyStrip_b_ne_empty (stripBullet line).data b sdsSep a
        (splitOnce_spec sdsSep _ a b hs1).1 ⟨['-', ' '], rfl⟩ this
    | none =>
      rw [hs1] at h
      cases hcond : (pyIn dsSep (pyStrip (stripBullet line)).data
          && dashGuard (pyStrip (stripBullet line)).data) with
      | true =>
        rw [hcond] at h
        simp only [if_true] at h
        cases hs2 : splitOnce dsSep (pyStrip (stripBullet line)).data with
        | some q =>
          rcases q with ⟨a, b⟩
          rw [hs2] at h
          have hp := Option.some.inj h
          have he : p.english = some (pyStrip (String.mk b)) := by
            rw [← hp]
          rw [he]
          intro hcon
          have : pyStrip (String.mk b) = "" := Option.some.inj hcon
          exact pyStrip_b_ne_empty (stripBullet line).data b dsSep a
            (splitOnce_spec dsSep _ a b hs2).1 ⟨['-'], rfl⟩ this
        | none =>
          rw [hs2] at h
          have hp := Option.some.inj h
          have he : p.english = none := by rw [← hp]
          rw [he]
          simp
      | false =>
        rw [hcond] at h
        simp only [Bool.false_eq_true, if_false] at h
        have hp := Option.some.inj h
        have he : p.english = none := by rw [← hp]
        rw [he]
        simp

/-- C2: over every group of provisional entries (entries without empty-string
translations - the second conjunct shows the extractor never produces one),
the merged translation follows exactly the claimed fold rule (fill absent /
longer wins / first-seen on ties), and when any date is present the merged
`lesson_date` is the minimum of the present dates of the whole group. -/
theorem merge_translation_min_date :
    (∀ (first : Entry) (rest : List Entry),
      (∀ e ∈ first :: rest, e.english ≠ some "") →
      (merge_entries first rest).english
        = (rest.map Entry.english).foldl specTranslationStep first.english
      ∧ ((first :: rest).filterMap Entry.lesson_date ≠ [] →
          ∃ m, (merge_entries first rest).lesson_date = some m
            ∧ m ∈ (first :: rest).filterMap Entry.lesson_date
            ∧ ∀ d ∈ (first :: rest).filterMap Entry.lesson_date, strLtB d m = false))
    ∧ (∀ (line : String) (p : PRec), parse_entry_line line = some p →
        p.english ≠ some "") := by
  refine ⟨?_, parse_entry_line_no_empty_english⟩
  intro first rest h
  constructor
  · rw [merge_entries_english, foldl_mergeStep_english]
    refine foldl_english_spec first.english (rest.map Entry.english)
      (h first (by simp)) ?_
    intro x hx
    obtain ⟨e, he, hex⟩ := List.mem_map.mp hx
    rw [← hex]
    exact h e (by simp [he])
  · intro hne
    rw [merge_entries_date]
    cases hd : (first :: rest).filterMap Entry.lesson_date with
    | nil => exact absurd hd hne
    | cons d ds =>
      obtain ⟨hm, hle⟩ := foldl_minString_spec ds d
      exact ⟨ds.foldl minString d, rfl, hm, hle⟩

/-- The claim's entry A (`行く`, dated 2023-02-01, no translation). -/
def entryA : Entry :=
  { japanese := "行く", reading := none, english := none, entry_type := "vocab",
    lesson_date := some "2023-02-01", tags := ["general"], grammar_patterns := [],
    jlpt_level := some "N5", context_note := none, is_sub_entry := false,
    source_line := 1, id := "" }

/-- The claim's entry B (`行く`, dated 2023-01-15, translation "to go"). -/
def entryB : Entry :=
  { japanese := "行く", reading := none, english := some "to go", entry_type := "vocab",
    lesson_date := some "2023-01-15", tags := ["general"], grammar_patterns := [],
    jlpt_level := some "N5", context_note := none, is_sub_entry := false,
    source_line := 2, id := "" }

theorem merge_translation_min_date_witness :
    (merge_entries entryA [entryB]).english
      = ([entryB].map Entry.english).foldl specTranslationStep entryA.english
    ∧ (merge_entries entryA [entryB]).lesson_date = some "2023-01-15"
    ∧ (merge_entries entryA [entryB]).english = some "to go" :=
  ⟨(merge_translation_min_date.1 entryA [entryB] (by decide)).1, by decide, by decide⟩

theorem detect_scenarios_ne_nil (j : String) (en : Option String) :
    detect_scenarios j en ≠ [] := by
  simp only [detect_scenarios]
  cases he : (scenario_keywords.filterMap
      (fun p => if p.2.any
          (fun kw => pyIn (pyLower kw).data (pyLower (j ++ " " ++ en.getD "")).data)
        then some p.1 else none)).isEmpty with
  | true => simp
  | false =>
    simp only [Bool.false_eq_true, if_false]
    intro hc
    rw [hc] at he
    simp at he

theorem detect_scenarios_general (j : String) (en : Option String)
    (hall : scenario_keywords.all
      (fun p => p.2.all
        (fun kw => !(pyIn (pyLower kw).data (pyLower (j ++ " " ++ en.getD "")).data))) = true) :
    detect_scenarios j en = ["general"] := by
  simp only [detect_scenarios]
  have hnil : (scenario_keywords.filterMap
      (fun p => if p.2.any
          (fun kw => pyIn (pyLower kw).data (pyLower (j ++ " " ++ en.getD "")).data)
        then some p.1 else none)) = [] := by
    rw [List.filterMap_eq_nil_iff]
    intro pr hpr
    have h2 := (List.all_eq_true.mp hall) pr hpr
    have h3 : pr.2.any
        (fun kw => pyIn (pyLower kw).data (pyLower (j ++ " " ++ en.getD "")).data) = false := by
      cases h4 : pr.2.any
          (fun kw => pyIn (pyLower kw).data (pyLower (j ++ " " ++ en.getD "")).data)
      · rfl
      · obtain ⟨kw, hkw, hkwt⟩ := List.any_eq_true.mp h4
        have := List.all_eq_true.mp h2 kw hkw
        rw [hkwt] at this
        exact absurd this (by simp)
    rw [h3]
    simp
  rw [hnil]
  rfl

theorem processRest_entry_inv (st : ParseState) (n : Nat) (line : String)
    (st2 : ParseState) (e : Entry) (h : processRest st n line = (st2, some e)) :
    ∃ p isSub, parse_entry_line (pyLstrip line) = some p ∧ e = mkEntry p st n isSub := by
  rcases hpd : parse_lesson_date line with ⟨dopt, ny⟩
  cases dopt with
  | some dv =>
    cases ny with
    | true =>
      rw [show processRest st n line =
        ({ currentDate := some (st.currentYear ++ "-" ++ dv),
           currentYear := st.currentYear }, none) from by simp [processRest, hpd]] at h
      exact absurd (Prod.mk.injEq _ _ _ _ ▸ h).2 (by simp)
    | false =>
      rw [show processRest st n line =
        ({ currentDate := some dv, currentYear := String.mk (dv.data.take 4) }, none)
        from by simp [processRest, hpd]] at h
      exact absurd (Prod.mk.injEq _ _ _ _ ▸ h).2 (by simp)
  | none =>
    revert h
    simp only [processRest, hpd]
    split
    · split
      · intro h; exact absurd (Prod.mk.injEq _ _ _ _ ▸ h).2 (by simp)
      · split
        · intro h; exact absurd (Prod.mk.injEq _ _ _ _ ▸ h).2 (by simp)
        · split
          · intro h; exact absurd (Prod.mk.injEq _ _ _ _ ▸ h).2 (by simp)
          · intro h
            next p hp hj =>
              refine ⟨p, startsWithL line.data ' ' || startsWithL line.data '\t', hp, ?_⟩
              have := (Prod.mk.injEq _ _ _ _ ▸ h).2
              exact (Option.some.inj this).symm
    · intro h; exact absurd (Prod.mk.injEq _ _ _ _ ▸ h).2 (by simp)

theorem processLine_entry_shape (st : ParseState) (n : Nat) (raw : String)
    (st2 : ParseState) (e : Entry) (h : processLine st n raw = (st2, some e)) :
    ∃ p isSub, e = mkEntry p st n isSub := by
  rcases processLine_cases st n raw with heq | ⟨y, _, heq⟩ | heq
  · rw [heq] at h
    exact absurd (Prod.mk.injEq _ _ _ _ ▸ h).2 (by simp)
  · rw [heq] at h
    exact absurd (Prod.mk.injEq _ _ _ _ ▸ h).2 (by simp)
  · rw [heq] at h
    obtain ⟨p, isSub, _, hmk⟩ := processRest_entry_inv st n (pyStrip raw) st2 e h
    exact ⟨p, isSub, hmk⟩

theorem mkEntry_tags (p : PRec) (st : ParseState) (n : Nat) (isSub : Bool) :
    (mkEntry p st n isSub).tags
      = detect_scenarios (mkEntry p st n isSub).japanese (mkEntry p st n isSub).english := rfl

theorem driveLines_tags (L : List (Nat × String)) : ∀ st : ParseState,
    ∀ e ∈ driveLines L st, e.tags = detect_scenarios e.japanese e.english := by
  induction L with
  | nil =>
    intro st e he
    simp [driveLines] at he
  | cons q rest ih =>
    intro st e he
    rcases q with ⟨n, raw⟩
    rcases hpl : processLine st n raw with ⟨st2, eopt⟩
    simp only [driveLines, hpl] at he
    cases eopt with
    | some e0 =>
      rcases List.mem_cons.mp he with he | he
      · obtain ⟨p, isSub, hmk⟩ := processLine_entry_shape st n raw st2 e0 hpl
        rw [he, hmk]
        exact mkEntry_tags p st n isSub
      · exact ih st2 e he
    | none => exact ih st2 e he

theorem merge_entries_tags (first : Entry) (rest : List Entry) :
    (merge_entries first rest).tags =
      (if 1 < (rest.foldl mergeStep first).tags.length
          ∧ "general" ∈ (rest.foldl mergeStep first).tags
        then (rest.foldl mergeStep first).tags.erase "general"
        else (rest.foldl mergeStep first).tags) := by
  simp only [merge_entries]
  cases hd : (first :: rest).filterMap Entry.lesson_date with
  | nil => split <;> split <;> first | rfl | (exfalso; simp_all)
  | cons d ds => split <;> split <;> first | rfl | (exfalso; simp_all)

theorem foldl_mergeStep_tags_ne (rest : List Entry) : ∀ first : Entry,
    first.tags ≠ [] → (rest.foldl mergeStep first).tags ≠ [] := by
  induction rest with
  | nil => intro first h; exact h
  | cons e t ih =>
    intro first h
    simp only [List.foldl_cons]
    refine ih (mergeStep first e) ?_
    show pySetList (first.tags ++ e.tags) ≠ []
    apply pySetList_ne_nil
    simp [h]

theorem merge_entries_tags_ne (first : Entry) (rest : List Entry)
    (h : first.tags ≠ []) : (merge_entries first rest).tags ≠ [] := by
  rw [merge_entries_tags]
  have hu := foldl_mergeStep_tags_ne rest first h
  split
  next hcond =>
    have hlen := List.length_erase_of_mem hcond.2
    intro hc
    rw [hc] at hlen
    simp at hlen
    omega
  next => exact hu

theorem mergeGroup_tags_ne (g : List Entry) (hg : g ≠ [])
    (h : ∀ e ∈ g, e.tags ≠ []) : (mergeGroup g).tags ≠ [] := by
  cases g with
  | nil => exact absurd rfl hg
  | cons e r =>
    cases r with
    | nil => exact h e (by simp)
    | cons f t => exact merge_entries_tags_ne e (f :: t) (h e (by simp))

/-- C8: every final record's topics list is non-empty; the topic annotator
returns exactly `["general"]` when no keyword matches (and is never empty);
and the merge step leaves the unioned tag set untouched unless it has more
than one element and contains `"general"`. -/
theorem topics_invariants :
    (∀ (lines : List String), ∀ e ∈ parse_file lines, e.tags ≠ [])
    ∧ (∀ (j : String) (en : Option String),
        detect_scenarios j en ≠ []
        ∧ (scenario_keywords.all
            (fun p => p.2.all
              (fun kw => !(pyIn (pyLower kw).data
                (pyLower (j ++ " " ++ en.getD "")).data))) = true →
          detect_scenarios j en = ["general"]))
    ∧ (∀ (first : Entry) (rest : List Entry),
        ((rest.foldl mergeStep first).tags.length ≤ 1
          ∨ "general" ∉ (rest.foldl mergeStep first).tags) →
        (merge_entries first rest).tags = (rest.foldl mergeStep first).tags) := by
  refine ⟨?_, ?_, ?_⟩
  · intro lines r hr
    obtain ⟨e, he, her⟩ := mem_assignIds r _ hr
    have hrt : r.tags = e.tags := by rw [her]
    rw [hrt]
    simp only [deduplicate_entries] at he
    have he2 := (sortByDate_perm _).mem_iff.mp he
    obtain ⟨grp, hgrp, hgr⟩ := List.mem_map.mp he2
    obtain ⟨k, hk, hkg⟩ := List.mem_map.mp hgrp
    rw [← hgr]
    have hraw : ∀ x ∈ raw_entries lines, x.tags ≠ [] := by
      intro x hx
      rw [driveLines_tags _ _ x hx]
      exact detect_scenarios_ne_nil _ _
    refine mergeGroup_tags_ne grp ?_ ?_
    · rw [← hkg]
      have hk2 := (mem_dedupFirst k _).mp hk
      obtain ⟨x, hx, hxk⟩ := List.mem_map.mp hk2
      intro hcon
      have : x ∈ List.filter (fun e => e.japanese == k) (raw_entries lines) :=
        List.mem_filter.mpr ⟨hx, by simp [hxk]⟩
      rw [hcon] at this
      simp at this
    · intro x hx
      rw [← hkg] at hx
      exact hraw x (List.mem_filter.mp hx).1
  · intro j en
    exact ⟨detect_scenarios_ne_nil j en, detect_scenarios_general j en⟩
  · intro first rest h
    rw [merge_entries_tags]
    rw [if_neg]
    intro hcond
    rcases h with h | h
    · omega
    · exact h hcond.2

theorem topics_invariants_witness :
    ({ japanese := "ねこ", reading := some "ねこ", english := none,
       entry_type := "vocab", lesson_date := none, tags := ["general"],
       grammar_patterns := [], jlpt_level := none, context_note := none,
       is_sub_entry := false, source_line := 1, id := "entry_00001" } : Entry).tags ≠ []
    ∧ detect_scenarios "xyzq" none = ["general"]
    ∧ (merge_entries entryA []).tags = ([].foldl mergeStep entryA).tags :=
  ⟨by
    have h := (topics_invariants.1 ["* ねこ"])
      { japanese := "ねこ", reading := some "ねこ", english := none,
        entry_type := "vocab", lesson_date := none, tags := ["general"],
        grammar_patterns := [], jlpt_level := none, context_note := none,
        is_sub_entry := false, source_line := 1, id := "entry_00001" } (by decide)
    exact h,
   (topics_invariants.2.1 "xyzq" none).2 (by decide),
   topics_invariants.2.2 entryA [] (Or.inl (by decide))⟩

/-- First counterexample record: base text `あ`, dated 2023-01-01. -/
def ce1 : Entry :=
  ⟨"あ", none, none, "vocab", some "2023-01-01", ["general"], [], none, none, false, 1, ""⟩

/-- Second counterexample record: base text `い`, same date. -/
def ce2 : Entry :=
  ⟨"い", none, none, "vocab", some "2023-01-01", ["general"], [], none, none, false, 2, ""⟩

/-- C1 counterexample: swapping two provisional entries with distinct base
texts but the same lesson date swaps their position in the (stable) sorted
output and hence their assigned ids, so the final record collections differ. -/
theorem dedup_perm_counterexample :
    List.Perm [ce1, ce2] [ce2, ce1]
    ∧ assignIds (deduplicate_entries [ce1, ce2]).1
        ≠ assignIds (deduplicate_entries [ce2, ce1]).1 :=
  ⟨List.Perm.swap ce2 ce1 [], by decide⟩

/-- Derived helper: the lesson date the deduplicator assigns to the group of
base text `k` — the minimum present date of the group, or `none`. -/
def groupDate (es : List Entry) (k : String) : Option String :=
  match (es.filter (fun e => e.japanese == k)).filterMap Entry.lesson_date with
  | [] => none
  | d :: ds => some (ds.foldl minString d)

theorem foldl_minString_perm (d1 : String) (ds1 : List String) (d2 : String)
    (ds2 : List String) (hp : List.Perm (d1 :: ds1) (d2 :: ds2)) :
    ds1.foldl minString d1 = ds2.foldl minString d2 := by
  obtain ⟨hm1, hle1⟩ := foldl_minString_spec ds1 d1
  obtain ⟨hm2, hle2⟩ := foldl_minString_spec ds2 d2
  have h12 : ds1.foldl minString d1 ∈ d2 :: ds2 := hp.mem_iff.mp hm1
  have h21 : ds2.foldl minString d2 ∈ d1 :: ds1 := hp.mem_iff.mpr hm2
  exact strLtB_conn _ _ (hle2 _ h12) (hle1 _ h21)

theorem groupDate_perm (l1 l2 : List Entry) (hp : List.Perm l1 l2) (k : String) :
    groupDate l1 k = groupDate l2 k := by
  have hf : List.Perm
      ((l1.filter (fun e => e.japanese == k)).filterMap Entry.lesson_date)
      ((l2.filter (fun e => e.japanese == k)).filterMap Entry.lesson_date) :=
    List.Perm.filterMap _ (hp.filter _)
  unfold groupDate
  cases h1 : (l1.filter (fun e => e.japanese == k)).filterMap Entry.lesson_date with
  | nil =>
    cases h2 : (l2.filter (fun e => e.japanese == k)).filterMap Entry.lesson_date with
    | nil => rfl
    | cons d2 ds2 =>
      rw [h1, h2] at hf
      simpa using hf.length_eq
  | cons d1 ds1 =>
    cases h2 : (l2.filter (fun e => e.japanese == k)).filterMap Entry.lesson_date with
    | nil =>
      rw [h1, h2] at hf
      simpa using hf.length_eq
    | cons d2 ds2 =>
      rw [h1, h2] at hf
      exact congrArg some (foldl_minString_perm d1 ds1 d2 ds2 hf)

theorem merge_entries_japanese (first : Entry) (rest : List Entry) :
    (merge_entries first rest).japanese = first.japanese := by
  have hj := foldl_mergeStep_japanese first rest
  simp only [merge_entries]
  cases hd : (first :: rest).filterMap Entry.lesson_date with
  | nil => split <;> simpa using hj
  | cons d ds => split <;> simpa using hj

theorem mergeGroup_japanese (g : List Entry) (k : String) (hne : g ≠ [])
    (hall : ∀ e ∈ g, e.japanese = k) : (mergeGroup g).japanese = k := by
  cases g with
  | nil => exact absurd rfl hne
  | cons e r =>
    cases r with
    | nil => exact hall e (by simp)
    | cons f t =>
      rw [show mergeGroup (e :: f :: t) = merge_entries e (f :: t) from rfl,
        merge_entries_japanese]
      exact hall e (by simp)

theorem mergeGroup_date_eq (g : List Entry) (hne : g ≠ []) :
    (mergeGroup g).lesson_date =
      match g.filterMap Entry.lesson_date with
      | [] => none
      | d :: ds => some (ds.foldl minString d) := by
  cases g with
  | nil => exact absurd rfl hne
  | cons e r =>
    cases r with
    | nil =>
      show e.lesson_date = _
      cases hd : e.lesson_date with
      | none => simp [List.filterMap_cons, hd]
      | some d => simp [List.filterMap_cons, hd]
    | cons f t =>
      have hd := merge_entries_date e (f :: t)
      rw [show mergeGroup (e :: f :: t) = merge_entries e (f :: t) from rfl, hd]
      cases hfm : (e :: f :: t).filterMap Entry.lesson_date with
      | nil =>
        have he0 : e.lesson_date = none :=
          (List.filterMap_eq_nil_iff.mp hfm) e (by simp)
        simp [he0]
      | cons d ds => rfl

theorem assignIds_map_pair (l : List Entry) :
    (assignIds l).map (fun e => (e.japanese, e.lesson_date))
      = l.map (fun e => (e.japanese, e.lesson_date)) := by
  unfold assignIds
  rw [List.map_map]
  rw [show ((fun e : Entry => (e.japanese, e.lesson_date))
      ∘ fun p : Nat × Entry => { p.2 with id := entryId p.1 })
    = ((fun e : Entry => (e.japanese, e.lesson_date)) ∘ Prod.snd) from rfl]
  rw [← List.map_map, List.enumFrom_map_snd]

theorem pair_mem_dedup (es : List Entry) (x : String × Option String) :
    x ∈ ((List.map mergeGroup
        ((dedupFirst (es.map Entry.japanese)).map
          (fun k => es.filter (fun e => e.japanese == k)))).map
            (fun e => (e.japanese, e.lesson_date)))
      ↔ ∃ k, k ∈ es.map Entry.japanese ∧ x = (k, groupDate es k) := by
  rw [List.map_map, List.map_map]
  have hcompute : ∀ k, k ∈ es.map Entry.japanese →
      ((mergeGroup (es.filter (fun e => e.japanese == k))).japanese,
        (mergeGroup (es.filter (fun e => e.japanese == k))).lesson_date)
      = (k, groupDate es k) := by
    intro k hk
    obtain ⟨e0, he0, he0k⟩ := List.mem_map.mp hk
    have hne : es.filter (fun e => e.japanese == k) ≠ [] := by
      intro hcon
      have : e0 ∈ es.filter (fun e => e.japanese == k) :=
        List.mem_filter.mpr ⟨he0, by simp [he0k]⟩
      rw [hcon] at this
      simp at this
    have hj : (mergeGroup (es.filter (fun e => e.japanese == k))).japanese = k := by
      refine mergeGroup_japanese _ k hne ?_
      intro e he
      have := (List.mem_filter.mp he).2
      exact eq_of_beq this
    have hdt : (mergeGroup (es.filter (fun e => e.japanese == k))).lesson_date
        = groupDate es k := by
      rw [mergeGroup_date_eq _ hne]
      rfl
    rw [hj, hdt]
  constructor
  · intro hx
    obtain ⟨k, hk, hkx⟩ := List.mem_map.mp hx
    have hk2 := (mem_dedupFirst k _).mp hk
    refine ⟨k, hk2, ?_⟩
    rw [← hkx]
    exact hcompute k hk2
  · rintro ⟨k, hk, hx⟩
    refine List.mem_map.mpr ⟨k, (mem_dedupFirst k _).mpr hk, ?_⟩
    rw [hx]
    exact hcompute k hk

/-- C1 amended: permuting the provisional entries leaves the set of
`(base_text, lesson_date)` pairs of the final collection unchanged (the date
of each base text is the permutation-invariant minimum); the collections
themselves can differ, as the counterexample's id swap shows. -/
theorem dedup_perm_invariant_pairs (l1 l2 : List Entry) (hp : List.Perm l1 l2) :
    ((assignIds (deduplicate_entries l1).1).map
        (fun e => (e.japanese, e.lesson_date))).toFinset
      = ((assignIds (deduplicate_entries l2).1).map
        (fun e => (e.japanese, e.lesson_date))).toFinset := by
  rw [assignIds_map_pair, assignIds_map_pair]
  simp only [deduplicate_entries]
  rw [List.toFinset_eq_of_perm _ _
    (List.Perm.map (fun e => (e.japanese, e.lesson_date)) (sortByDate_perm _))]
  rw [List.toFinset_eq_of_perm
    ((sortByDate _).map (fun e => (e.japanese, e.lesson_date))) _
    (List.Perm.map (fun e => (e.japanese, e.lesson_date)) (sortByDate_perm _))]
  apply Finset.ext
  intro x
  rw [List.mem_toFinset, List.mem_toFinset, pair_mem_dedup, pair_mem_dedup]
  constructor
  · rintro ⟨k, hk, hx⟩
    exact ⟨k, (hp.map Entry.japanese).mem_iff.mp hk,
      by rw [hx, groupDate_perm l1 l2 hp k]⟩
  · rintro ⟨k, hk, hx⟩
    exact ⟨k, (hp.map Entry.japanese).mem_iff.mpr hk,
      by rw [hx, groupDate_perm l1 l2 hp k]⟩

theorem dedup_perm_invariant_pairs_witness :
    ((assignIds (deduplicate_entries [ce1, ce2]).1).map
        (fun e => (e.japanese, e.lesson_date))).toFinset
      = ((assignIds (deduplicate_entries [ce2, ce1]).1).map
        (fun e => (e.japanese, e.lesson_date))).toFinset :=
  dedup_perm_invariant_pairs [ce1, ce2] [ce2, ce1] (List.Perm.swap ce2 ce1 [])
